import Mathlib

/-!
Verification of the task-lifecycle orchestrator (`task_processor.py`).

Python strings are embedded as `List Char` (`Str`); Python dictionaries of
strings as association lists with insert-or-replace semantics mirroring
CPython's ordered dicts.  Each definition below is a shallow embedding of
the correspondingly named function of the source; deviations forced by the
embedding (ASCII-range whitespace, explicit clock/network parameters) are
noted in the doc comments.
-/

namespace TaskProc

/-- A Python string, embedded as its list of characters. -/
abbrev Str := List Char

/-- Coerce a Lean string literal to the embedding type. -/
def str (s : String) : Str := s.data

/-- The double-quote character (written via its code point to keep the
source free of quote-escape literals). -/
def dquote : Char := Char.ofNat 34

/-- The single-quote character. -/
def squote : Char := Char.ofNat 39

/-- Whitespace as recognized by Python's `str.strip` and by the regex class
`\s`, restricted to the ASCII range (documents containing exotic Unicode
whitespace are outside the scope of this development). -/
def isSpace (c : Char) : Bool :=
  c == ' ' || c == '\t' || c == '\n' || c == '\r' || c == '\x0b' || c == '\x0c'

/-- Line boundaries recognized by Python's `str.splitlines`, restricted to
the ASCII range. -/
def isBreak (c : Char) : Bool :=
  c == '\n' || c == '\r' || c == '\x0b' || c == '\x0c'

/-- Python `s.strip()`: drop leading and trailing whitespace. -/
def pyStrip (s : Str) : Str :=
  ((s.dropWhile isSpace).reverse.dropWhile isSpace).reverse

/-- Python `s.lower()`, restricted to ASCII case mapping. -/
def pyLower (s : Str) : Str := s.map Char.toLower

/-- Python `str.splitlines` (ASCII line boundaries, including the combined
`\r\n` boundary). -/
def splitlinesGo : Str → Str → List Str
  | acc, [] => if acc.isEmpty then [] else [acc.reverse]
  | acc, '\r' :: '\n' :: t => acc.reverse :: splitlinesGo [] t
  | acc, c :: t =>
      if isBreak c then acc.reverse :: splitlinesGo [] t
      else splitlinesGo (c :: acc) t

/-- Python `s.splitlines()`. -/
def splitlines (s : Str) : List Str := splitlinesGo [] s

/-- First index at which `pat` occurs as a contiguous substring of `s`
(Python `s.find(pat)` restricted to found/not-found). -/
def findSubIdx (pat : Str) : Str → Option Nat
  | [] => if pat.isPrefixOf ([] : Str) then some 0 else none
  | c :: t =>
      if pat.isPrefixOf (c :: t) then some 0
      else (findSubIdx pat t).map (· + 1)

/-- Python's `pat in s` substring test. -/
def containsSub (pat s : Str) : Bool := (findSubIdx pat s).isSome

/-- A Python `dict[str, str]`: an association list with at most one entry
per key when built by `dinsert`. -/
abbrev Dict := List (Str × Str)

/-- Lookup (`d.get(k)`): value of the first entry with key `k`. -/
def dget : Dict → Str → Option Str
  | [], _ => none
  | (k', v) :: m, k => if k' = k then some v else dget m k

/-- Lookup with default (`d.get(k, dflt)`). -/
def dgetD (m : Dict) (k dflt : Str) : Str := (dget m k).getD dflt

/-- `d[k] = v` on a CPython dict: replace the value of the (first, and in
the dicts built here only) entry with key `k` in place, keeping its
position, or append a new entry when the key is absent. -/
def dinsert : Dict → Str → Str → Dict
  | [], k, v => [(k, v)]
  | (a, b) :: t, k, v =>
      if a = k then (k, v) :: t else (a, b) :: dinsert t k v

/-- The keys of a dict. -/
def dkeys (m : Dict) : List Str := m.map Prod.fst

-- ------------------------------------------------------------------
-- Metadata codec: `parse_frontmatter`
-- ------------------------------------------------------------------

/-- The literal `"\n---"`, the needle of the closing-delimiter search in
the frontmatter regex. -/
def nlDashes : Str := '\n' :: '-' :: '-' :: '-' :: []

/-- The literal `"---"`. -/
def dashes3 : Str := '-' :: '-' :: '-' :: []

/-- Successor positions of each newline of `run` (offset by `i`): these are
the candidate start positions of the regex group 1, produced in ascending
order. -/
def nlSuccPos : Str → Nat → List Nat
  | [], _ => []
  | c :: t, i =>
      if c = '\n' then (i + 1) :: nlSuccPos t (i + 1) else nlSuccPos t (i + 1)

/-- Try each candidate opening position (given greedily, i.e. descending)
and return the first one from which the closing needle `"\n---"` occurs,
together with the offset of that occurrence. -/
def tryOpen (after : Str) : List Nat → Option (Nat × Nat)
  | [] => none
  | p :: ps =>
      match findSubIdx nlDashes (after.drop p) with
      | some q => some (p, q)
      | none => tryOpen after ps

/-- The frontmatter split performed by
`re.match(r"^---\s*\n(.*?)\n---\s*\n?(.*)", text, re.DOTALL)` in
`parse_frontmatter`: the text must start with `---`, then a whitespace run
whose last consumed character is a newline (greedy `\s*` then `\n`,
resolved by backtracking); group 1 runs lazily up to the first later
occurrence of `"\n---"`; the trailing `\s*\n?` then swallows all
whitespace before group 2.  Returns `(group 1, group 2)`, or `none` when
the regex does not match. -/
def fmSplit (text : Str) : Option (Str × Str) :=
  if dashes3.isPrefixOf text then
    let after := text.drop 3
    let run := after.takeWhile isSpace
    match tryOpen after (nlSuccPos run 0).reverse with
    | none => none
    | some (p, q) =>
        let rest := after.drop p
        some (rest.take q, (rest.drop (q + 4)).dropWhile isSpace)
  else none

/-- Strip one matching pair of surrounding quote characters, as
`parse_frontmatter` does on values. -/
def stripQuotes (v : Str) : Str :=
  if 2 ≤ v.length ∧ v.head? = v.getLast? ∧
      (v.head? = some dquote ∨ v.head? = some squote) then
    (v.drop 1).dropLast
  else v

/-- The key/value a single header line contributes: `none` when the line
is skipped (blank after stripping, comment, or without a colon), otherwise
the stripped key before the first colon and the stripped, quote-stripped
value after it. -/
def lineKeyVal (rawLine : Str) : Option (Str × Str) :=
  let line := pyStrip rawLine
  if line = [] then none
  else if line.head? = some '#' then none
  else
    match line.findIdx? (fun c => c == ':') with
    | none => none
    | some i =>
        some (pyStrip (line.take i), stripQuotes (pyStrip (line.drop (i + 1))))

/-- Process one line of the header block into the accumulated dict. -/
def processLine (meta : Dict) (rawLine : Str) : Dict :=
  match lineKeyVal rawLine with
  | none => meta
  | some (k, v) => dinsert meta k v

/-- The reserved body key `"__body__"`. -/
def bodyKey : Str := str "__body__"

/-- `parse_frontmatter`, given the document text (the Python function reads
the text from a file first; the file read is outside the codec).  Without
the delimiter shape, the whole text is stored unstripped under
`__body__`; otherwise the stripped group 2 is stored under `__body__` and
the header lines are folded into the dict. -/
def parseFrontmatter (text : Str) : Dict :=
  match fmSplit text with
  | none => [(bodyKey, text)]
  | some (yamlBlock, body) =>
      (splitlines yamlBlock).foldl processLine [(bodyKey, pyStrip body)]

-- ------------------------------------------------------------------
-- Stage transition engine: `move_file`, `move_to_error`
-- ------------------------------------------------------------------

/-- Index of the last character of `s` satisfying `p`, if any. -/
def rfindIdx (p : Char → Bool) (s : Str) : Option Nat :=
  match s.reverse.findIdx? p with
  | none => none
  | some j => some (s.length - 1 - j)

/-- pathlib's `(stem, suffix)` split of a filename: the suffix starts at
the last dot, provided that dot is neither the first nor the last
character of the name. -/
def splitExt (name : Str) : Str × Str :=
  match rfindIdx (fun c => c == '.') name with
  | some i =>
      if 0 < i ∧ i + 1 < name.length then (name.take i, name.drop i)
      else (name, [])
  | none => (name, [])

/-- `Path.stem`. -/
def stemOf (name : Str) : Str := (splitExt name).1

/-- `Path.suffix`. -/
def suffixOf (name : Str) : Str := (splitExt name).2

/-- The candidate destination name tried by the collision loop of
`move_file` at counter `k`: `f"{src.stem}_{counter}{src.suffix}"`. -/
def nextCand (stem sfx : Str) (k : Nat) : Str :=
  stem ++ '_' :: (Nat.repr k).data ++ sfx

/-- The collision loop of `move_file`: starting at counter `k`, return the
first candidate name not present in `dir`.  Fuel-indexed; with fuel
`dir.length + 1` it always succeeds (`findFree_isSome` below). -/
def findFree (stem sfx : Str) (dir : List Str) : Nat → Nat → Option Str
  | 0, _ => none
  | fuel + 1, k =>
      let c := nextCand stem sfx k
      if c ∈ dir then findFree stem sfx dir fuel (k + 1) else some c

/-- `move_file`: move `srcName` into the destination directory (modelled
as the list `dir` of names it currently contains), optionally prepending
`pre` to the name; while the destination name exists, probe `stem_1`,
`stem_2`, … (the probes are built from the bare source stem, dropping the
prefix, as the source does).  Returns the destination name and the
directory contents after the move. -/
def moveFile (srcName pre : Str) (dir : List Str) : Str × List Str :=
  let newName := if pre ≠ [] then pre ++ srcName else srcName
  if newName ∈ dir then
    let c := (findFree (stemOf srcName) (suffixOf srcName) dir (dir.length + 1) 1).getD newName
    (c, dir ++ [c])
  else (newName, dir ++ [newName])

/-- A directory with named subdirectories, each holding a list of files:
the model of `Logs/` with its `Error_*` batch subdirectories. -/
abbrev DirTree := List (Str × List Str)

/-- Contents of a subdirectory, if present. -/
def treeGet : DirTree → Str → Option (List Str)
  | [], _ => none
  | (n, fs) :: t, d => if n = d then some fs else treeGet t d

/-- Replace (or create) a subdirectory's contents. -/
def treeSet : DirTree → Str → List Str → DirTree
  | [], d, fs => [(d, fs)]
  | (n, gs) :: t, d, fs => if n = d then (d, fs) :: t else (n, gs) :: treeSet t d fs

/-- `move_to_error`: `mkdir` (with `exist_ok`) the batch directory
`Error_{ts}` inside Logs and move the record there.  `shutil.move` onto an
existing destination path replaces that file, so the model reports whether
an existing file was replaced.  The clock reading `ts`
(`%Y%m%d_%H%M%S`-formatted in the source) is a parameter.  Returns the
batch directory name, the updated tree, and the replacement flag. -/
def moveToError (taskName ts : Str) (logsTree : DirTree) : (Str × DirTree) × Bool :=
  let errDir := str "Error_" ++ ts
  let files := (treeGet logsTree errDir).getD []
  let overwrote := taskName ∈ files
  let files' := if overwrote then files else files ++ [taskName]
  ((errDir, treeSet logsTree errDir files'), overwrote)

-- ------------------------------------------------------------------
-- Action executors
-- ------------------------------------------------------------------

/-- The configured executor endpoint, `MCP_EMAIL_URL`. -/
def MCP_EMAIL_URL : Str := str "http://127.0.0.1:3000/send-email"

/-- The JSON payload of a send-email request (`toAddr` embeds the `to`
field, whose name is reserved in Lean). -/
structure EmailPayload where
  toAddr : Str
  subject : Str
  body : Str
  threadId : Option Str
deriving DecidableEq

/-- Outcome of the HTTP POST to the executor, supplied as a parameter of
the model: a JSON response with its `success` flag and detail
(`messageId` or `error`), an HTTP error, a connection error, or an
unexpected exception. -/
inductive NetOutcome
  | resp (success : Bool) (detail : Str)
  | httpError (code : Nat) (detail : Str)
  | connError (reason : Str)
  | exc
deriving DecidableEq

/-- An audit entry written to `Logs/`: the approval log, the
`ACTION_SUCCESS`/`ACTION_FAILED` files of `_log_action_result`, or the
rejection log.  The free-form detail text is carried but not otherwise
modelled. -/
inductive AuditEntry
  | approvalLog (file : Str)
  | actionSuccess (actionType file detail : Str)
  | actionFailed (actionType file detail : Str)
  | rejectionLog (file : Str)
deriving DecidableEq

/-- The effects of one action-executor run: its boolean result, records
created in `Needs_Action/`, audit entries written to `Logs/`, and HTTP
requests issued. -/
structure ActionResult where
  ok : Bool
  newInbox : List Str
  audits : List AuditEntry
  requests : List EmailPayload
deriving DecidableEq

/-- The normalized action type the approval pipeline dispatches on. -/
def actionTypeOf (meta : Dict) : Str :=
  pyLower (pyStrip (dgetD meta (str "action_type") []))

/-- The `to` field as validated by `_action_send_email`. -/
def sendTo (meta : Dict) : Str := pyStrip (dgetD meta (str "to") [])

/-- The `subject` field as validated by `_action_send_email`. -/
def sendSubject (meta : Dict) : Str := pyStrip (dgetD meta (str "subject") [])

/-- The message body as sourced by `_action_send_email`: the `body` field,
or else the document body. -/
def sendBody (meta : Dict) : Str :=
  let b := pyStrip (dgetD meta (str "body") [])
  if b ≠ [] then b else pyStrip (dgetD meta bodyKey [])

/-- The endpoint guard of `_action_send_email`: the URL must contain
`127.0.0.1` or `localhost` as a substring. -/
def urlCheckOk (url : Str) : Bool :=
  containsSub (str "127.0.0.1") url || containsSub (str "localhost") url

/-- `_action_send_email`.  The endpoint URL is a parameter so that the
hard-coded guard can be examined for arbitrary configurations; the source
always passes the constant `MCP_EMAIL_URL`.  The network outcome `net` is
consulted only if a request is actually issued. -/
def actionSendEmail (fileName : Str) (meta : Dict) (url : Str)
    (dryRun : Bool) (net : NetOutcome) : ActionResult :=
  let sendEmail := str "send_email"
  let toAddr := sendTo meta
  let subject := sendSubject meta
  let body := sendBody meta
  if toAddr = [] ∨ subject = [] ∨ body = [] then ⟨false, [], [], []⟩
  else if '@' ∉ toAddr then ⟨false, [], [], []⟩
  else if ¬ urlCheckOk url then ⟨false, [], [], []⟩
  else
    let threadId := pyStrip (dgetD meta (str "threadId") [])
    let payload : EmailPayload :=
      ⟨toAddr, subject, body, if threadId ≠ [] then some threadId else none⟩
    if dryRun then ⟨true, [], [], []⟩
    else
      match net with
      | .resp true detail => ⟨true, [], [.actionSuccess sendEmail fileName detail], [payload]⟩
      | .resp false detail => ⟨false, [], [.actionFailed sendEmail fileName detail], [payload]⟩
      | .httpError _ detail => ⟨false, [], [.actionFailed sendEmail fileName detail], [payload]⟩
      | .connError reason => ⟨false, [], [.actionFailed sendEmail fileName reason], [payload]⟩
      | .exc => ⟨false, [], [.actionFailed sendEmail fileName (str "Unexpected error")], [payload]⟩

/-- `_action_placeholder`: write one manual-handling notification
`MANUAL_{ts}_{stem}.md` into `Needs_Action/` and report success. -/
def actionPlaceholder (fileName ts : Str) : ActionResult :=
  ⟨true, [str "MANUAL_" ++ ts ++ '_' :: stemOf fileName ++ str ".md"], [], []⟩

/-- The dispatch-table keys routed to `_action_placeholder`. -/
def placeholderActions : List Str :=
  [str "post_linkedin", str "post_twitter", str "create_invoice", str "schedule_meeting"]

/-- `execute_action`: dispatch on the trimmed, lower-cased `action_type`.
Empty means nothing to execute (success); `send_email` has a real
handler; the four recognized placeholder keys route to
`_action_placeholder`; anything else misses the dispatch table and is a
hard failure. -/
def executeAction (fileName : Str) (meta : Dict) (url : Str)
    (dryRun : Bool) (net : NetOutcome) (ts : Str) : ActionResult :=
  let a := actionTypeOf meta
  if a = [] then ⟨true, [], [], []⟩
  else if a = str "send_email" then actionSendEmail fileName meta url dryRun net
  else if a ∈ placeholderActions then actionPlaceholder fileName ts
  else ⟨false, [], [], []⟩

-- ------------------------------------------------------------------
-- Approval dispatcher
-- ------------------------------------------------------------------

/-- The vault directories and effect logs the approval pipeline touches.
`needsAction` records the files created in `Needs_Action/`, `logs` the
audit entries written, `sent` the HTTP requests issued. -/
structure VaultState where
  needsAction : List Str
  approvedDir : List Str
  doneDir : List Str
  logs : List AuditEntry
  sent : List EmailPayload
deriving DecidableEq

/-- The failure-alert record name written by
`_create_failure_notification`. -/
def alertName (fileName ts : Str) : Str :=
  str "ALERT_FAILED_" ++ ts ++ '_' :: stemOf fileName ++ str ".md"

/-- `ApprovalHandler._handle_approval`: if the approved record still
exists, log the approval, parse its frontmatter, execute the action when
an `action_type` is present, then route: on success move the record to
`Done/` (via `move_file`); on failure leave it in `Approved/` and create
one failure-alert record in `Needs_Action/`.  The record's text content,
the clock reading and the network outcome are parameters. -/
def handleApproval (fileName content url : Str) (dryRun : Bool)
    (net : NetOutcome) (ts : Str) (st : VaultState) : VaultState :=
  if fileName ∈ st.approvedDir then
    let st1 := { st with logs := st.logs ++ [AuditEntry.approvalLog fileName] }
    let meta := parseFrontmatter content
    let a := actionTypeOf meta
    if a ≠ [] then
      let r := executeAction fileName meta url dryRun net ts
      let st2 := { st1 with
        needsAction := st1.needsAction ++ r.newInbox,
        logs := st1.logs ++ r.audits,
        sent := st1.sent ++ r.requests }
      if r.ok then
        { st2 with
          approvedDir := st2.approvedDir.erase fileName,
          doneDir := (moveFile fileName [] st2.doneDir).2 }
      else
        { st2 with needsAction := st2.needsAction ++ [alertName fileName ts] }
    else
      { st1 with
        approvedDir := st1.approvedDir.erase fileName,
        doneDir := (moveFile fileName [] st1.doneDir).2 }
  else st

/-- Modelled from the spec: "the executor endpoint must be loopback-only".
A URL is loopback-only when its host component (the authority part before
any port or path) is `127.0.0.1` or `localhost`.  The spec asserts this
property of the endpoint guard; the source implements a substring test,
and C1 compares the two. -/
def isLoopbackOnly (url : Str) : Bool :=
  let rest :=
    if (str "http://").isPrefixOf url then url.drop 7
    else if (str "https://").isPrefixOf url then url.drop 8
    else url
  let host := rest.takeWhile (fun c => !(c == ':' || c == '/'))
  host == str "127.0.0.1" || host == str "localhost"

-- ------------------------------------------------------------------
-- Idempotency guard and the Needs_Action dispatcher
-- ------------------------------------------------------------------

/-- `tryAcquire`: the membership test plus insertion performed on the
handler's in-memory `processing` set. -/
def tryAcquire (k : Str) (s : List Str) : Bool × List Str :=
  if k ∈ s then (false, s) else (true, k :: s)

/-- `release`: `processing.discard(k)`. -/
def release (k : Str) (s : List Str) : List Str := s.erase k

/-- `on_created` of the watch handlers: directory events and files whose
suffix is not `.md` are ignored; a name already being processed is
dropped; otherwise the name is acquired, the handler body runs (its
result, normal or exceptional, is propagated), and the `finally` block
releases the name on every exit path. -/
def onCreated {E A : Type} (isDir : Bool) (name : Str) (s : List Str)
    (handle : Str → Except E A) : Option (Except E A) × List Str :=
  if isDir then (none, s)
  else if suffixOf name ≠ str ".md" then (none, s)
  else
    match tryAcquire name s with
    | (false, _) => (none, s)
    | (true, s1) => (some (handle name), release name s1)

-- ------------------------------------------------------------------
-- Processing dispatcher: `_handle_new_task`, backlog sweep, main loop
-- ------------------------------------------------------------------

/-- The directories the Needs_Action flow touches, plus the trace of
`_handle_new_task` invocations (in order). -/
structure ProcState where
  inbox : List Str
  inProgress : List Str
  logsTree : DirTree
  trace : List Str
deriving DecidableEq

/-- One external-processing outcome: whether the external step (Claude)
succeeded, and whether the record is still present in `In_Progress/`
afterwards (the step may itself have moved it). -/
structure StepOutcome where
  success : Bool
  stillThere : Bool
deriving DecidableEq

/-- `NeedsActionHandler._handle_new_task`: if the record still exists in
the inbox, move it to `In_Progress/` (via `move_file`), invoke the
external step, and on failure route the record (if still present) to a
fresh `Error_{ts}` batch under `Logs/` via `move_to_error`.  `out` gives
the external outcome per filename, `ts` the clock reading. -/
def handleNewTask (out : Str → StepOutcome) (ts : Str) (st : ProcState) (name : Str) : ProcState :=
  let st := { st with trace := st.trace ++ [name] }
  if name ∈ st.inbox then
    let mv := moveFile name [] st.inProgress
    let st1 := { st with inbox := st.inbox.erase name, inProgress := mv.2 }
    let o := out name
    if o.success then st1
    else if o.stillThere then
      { st1 with
        inProgress := st1.inProgress.erase mv.1,
        logsTree := (moveToError mv.1 ts st1.logsTree).1.2 }
    else st1
  else st

/-- Lexicographic (code-point) comparison on strings, as Python's `sorted`
compares the path names. -/
def strLe : Str → Str → Bool
  | [], _ => true
  | _ :: _, [] => false
  | a :: s, b :: t => if a = b then strLe s t else decide (a < b)

/-- `strLe` as a decidable relation, for use with `List.insertionSort`. -/
def strLeP (a b : Str) : Prop := strLe a b = true

instance : DecidableRel strLeP := fun a b => instDecidableEqBool (strLe a b) true

/-- Python's `sorted` on filenames: a sorted, stable rearrangement under
the code-point order (modelled by insertion sort, which has both
properties). -/
def pySorted (names : List Str) : List Str := names.insertionSort strLeP

/-- The names `Path.glob("*.md")` yields from a directory listing: names
ending in `.md`.  `pathlib`'s glob, unlike the `glob` module's, matches
dot-initial (hidden) names too, so no hidden-file exclusion applies. -/
def globMd (names : List Str) : List Str :=
  names.filter (fun n => (str ".md").isSuffixOf n)

/-- `process_backlog`: handle every `*.md` record already sitting in the
inbox, in `sorted` (ascending filename) order, each through the same
`_handle_new_task` used for live notifications. -/
def processBacklog (out : Str → StepOutcome) (ts : Str) (st : ProcState) : ProcState :=
  (pySorted (globMd st.inbox)).foldl (handleNewTask out ts) st

/-- A raw filesystem notification delivered to the live watcher. -/
structure LiveEvent where
  isDir : Bool
  name : Str
deriving DecidableEq

/-- One live notification through `NeedsActionHandler.on_created`: the
directory/extension checks, the duplicate-suppression guard, the same
`_handle_new_task`, and the release of the guard. -/
def liveStep (out : Str → StepOutcome) (ts : Str)
    (acc : ProcState × List Str) (e : LiveEvent) : ProcState × List Str :=
  let (st, s) := acc
  if e.isDir then (st, s)
  else if suffixOf e.name ≠ str ".md" then (st, s)
  else
    match tryAcquire e.name s with
    | (false, _) => (st, s)
    | (true, s1) => (handleNewTask out ts st e.name, release e.name s1)

/-- The live watch loop over a finite schedule of events. -/
def runLive (out : Str → StepOutcome) (ts : Str) (events : List LiveEvent)
    (st : ProcState) (s : List Str) : ProcState × List Str :=
  events.foldl (liveStep out ts) (st, s)

/-- `main` restricted to the Needs_Action flow: the backlog sweep runs to
completion first, and only then is the observer started and live events
dispatched (with a fresh `processing` set). -/
def mainRun (out : Str → StepOutcome) (ts : Str) (events : List LiveEvent)
    (st : ProcState) : ProcState × List Str :=
  runLive out ts events (processBacklog out ts st) []

/-- Whether a live event passes the directory and extension checks of
`on_created`. -/
def liveValid (e : LiveEvent) : Bool :=
  !e.isDir && (suffixOf e.name == str ".md")

-- ------------------------------------------------------------------
-- Derived observations used by the claims
-- ------------------------------------------------------------------

/-- Whether a list of audit entries contains an `ACTION_SUCCESS` entry. -/
def hasSuccessAudit (l : List AuditEntry) : Bool :=
  l.any fun e => match e with
    | .actionSuccess _ _ _ => true
    | _ => false

/-- Whether a list of audit entries contains an `ACTION_FAILED` entry. -/
def hasFailedAudit (l : List AuditEntry) : Bool :=
  l.any fun e => match e with
    | .actionFailed _ _ _ => true
    | _ => false

/-- The value contributed for key `k` by the last header line of `ls` that
sets `k`, if any. -/
def lastVal (k : Str) : List Str → Option Str
  | [] => none
  | l :: ls =>
      match lastVal k ls with
      | some v => some v
      | none =>
          match lineKeyVal l with
          | some (k', v) => if k' = k then some v else none
          | none => none

-- ------------------------------------------------------------------
-- The serializer of the codec round-trip claim
-- ------------------------------------------------------------------

/-- One serialized header line, `f"{key}: {value}"`. -/
def lineOf (kv : Str × Str) : Str := kv.1 ++ ':' :: ' ' :: kv.2

/-- The serialized header block: the lines joined by newlines (without a
trailing newline). -/
def yamlOf : Dict → Str
  | [] => []
  | [kv] => lineOf kv
  | kv :: H => lineOf kv ++ '\n' :: yamlOf H

/-- The serialized header block with one newline after every line. -/
def blockOf (H : Dict) : Str := (H.map (fun kv => lineOf kv ++ ['\n'])).flatten

/-- Modelled from the spec: the serializer `serialize(H, B)` of the codec
contract — "a delimiter line, a header block [of `key: value` lines], a
second delimiter line, then the body".  The source has no serializer
function; its notification writers emit records of exactly this shape
inline. -/
def serialize (H : Dict) (B : Str) : Str :=
  dashes3 ++ '\n' :: blockOf H ++ dashes3 ++ '\n' :: B

/-- The conditions on a header key under which the round trip can
reproduce it: nonempty, stripped, free of colons and line boundaries, not
a comment line, not starting with the delimiter, and not the reserved body
key. -/
def goodKey (k : Str) : Prop :=
  k ≠ [] ∧ pyStrip k = k ∧ ':' ∉ k ∧
  '\n' ∉ k ∧ '\r' ∉ k ∧ '\x0b' ∉ k ∧ '\x0c' ∉ k ∧
  k.head? ≠ some '#' ∧ ¬ dashes3.isPrefixOf k ∧ k ≠ bodyKey

/-- The conditions on a header value under which the round trip can
reproduce it: stripped, single-line, and not wrapped in a matching pair of
quotes. -/
def goodVal (v : Str) : Prop :=
  pyStrip v = v ∧ '\n' ∉ v ∧ '\r' ∉ v ∧ '\x0b' ∉ v ∧ '\x0c' ∉ v ∧
  ¬(2 ≤ v.length ∧ v.head? = v.getLast? ∧
    (v.head? = some dquote ∨ v.head? = some squote))

/-- A header mapping free of reserved-delimiter collisions: nonempty, with
distinct keys, every entry well-formed. -/
def goodHeader (H : Dict) : Prop :=
  H ≠ [] ∧ (dkeys H).Nodup ∧ ∀ kv ∈ H, goodKey kv.1 ∧ goodVal kv.2

-- ------------------------------------------------------------------
-- Decimal rendering (for `Nat.repr` injectivity)
-- ------------------------------------------------------------------

/-- Numeric value of a decimal digit character. -/
def digitVal (c : Char) : Nat := c.toNat - '0'.toNat

/-- Value of a digit string read left to right, starting from `a`. -/
def valFold (a : Nat) (l : List Char) : Nat :=
  l.foldl (fun x c => x * 10 + digitVal c) a

-- ==================================================================
-- Lemmas: stripping
-- ==================================================================

theorem dropWhile_eq_self_of_head (s : Str)
    (h : ∀ c, s.head? = some c → isSpace c = false) :
    s.dropWhile isSpace = s := by
  cases s with
  | nil => rfl
  | cons c t =>
      have hc := h c rfl
      simp [List.dropWhile_cons, hc]

theorem pyStrip_eq_self (s : Str)
    (h1 : ∀ c, s.head? = some c → isSpace c = false)
    (h2 : ∀ c, s.getLast? = some c → isSpace c = false) :
    pyStrip s = s := by
  unfold pyStrip
  rw [dropWhile_eq_self_of_head s h1]
  rw [dropWhile_eq_self_of_head s.reverse
    (by intro c hc; exact h2 c (by rwa [List.head?_reverse] at hc))]
  exact List.reverse_reverse s

theorem head_not_space_of_dropWhile_eq (s : Str) (h : s.dropWhile isSpace = s) :
    ∀ c, s.head? = some c → isSpace c = false := by
  intro c hc
  cases s with
  | nil => cases hc
  | cons a t =>
      have hca : c = a := by simpa using hc.symm
      subst hca
      by_contra hsp
      have hsp' : isSpace c = true := by revert hsp; cases isSpace c <;> simp
      rw [List.dropWhile_cons_of_pos hsp'] at h
      have hlen : (t.dropWhile isSpace).length ≤ t.length :=
        (List.dropWhile_suffix _).sublist.length_le
      have := congrArg List.length h
      simp at this
      omega

theorem dropWhile_eq_self_of_pyStrip (s : Str) (h : pyStrip s = s) :
    s.dropWhile isSpace = s := by
  have hsub : s.dropWhile isSpace <:+ s := List.dropWhile_suffix _
  apply hsub.eq_of_length
  have h1 : (s.dropWhile isSpace).length ≤ s.length := hsub.sublist.length_le
  have h2 : (pyStrip s).length ≤ (s.dropWhile isSpace).length := by
    unfold pyStrip
    rw [List.length_reverse]
    calc ((s.dropWhile isSpace).reverse.dropWhile isSpace).length
        ≤ (s.dropWhile isSpace).reverse.length :=
          (List.dropWhile_suffix _).sublist.length_le
      _ = (s.dropWhile isSpace).length := List.length_reverse _
  rw [h] at h2
  omega

theorem reverse_dropWhile_eq_of_pyStrip (s : Str) (h : pyStrip s = s) :
    s.reverse.dropWhile isSpace = s.reverse := by
  have hdw := dropWhile_eq_self_of_pyStrip s h
  have h' : pyStrip s = s := h
  unfold pyStrip at h'
  rw [hdw] at h'
  have := congrArg List.reverse h'
  simpa using this

theorem pyStrip_self_head (s : Str) (c : Char) (h : pyStrip s = s)
    (hc : s.head? = some c) : isSpace c = false :=
  head_not_space_of_dropWhile_eq s (dropWhile_eq_self_of_pyStrip s h) c hc

theorem pyStrip_self_getLast (s : Str) (c : Char) (h : pyStrip s = s)
    (hc : s.getLast? = some c) : isSpace c = false := by
  apply head_not_space_of_dropWhile_eq s.reverse (reverse_dropWhile_eq_of_pyStrip s h) c
  rw [List.head?_reverse]
  exact hc

theorem pyStrip_cons_space (v : Str) : pyStrip (' ' :: v) = pyStrip v := by
  unfold pyStrip
  rw [List.dropWhile_cons_of_pos (by decide : isSpace ' ' = true)]

-- ==================================================================
-- Lemmas: dict operations
-- ==================================================================

theorem dget_eq_none (m : Dict) (k : Str) (h : k ∉ dkeys m) : dget m k = none := by
  induction m with
  | nil => rfl
  | cons p t ih =>
      obtain ⟨a, b⟩ := p
      simp only [dkeys, List.map_cons, List.mem_cons] at h
      push_neg at h
      have hne : ¬ (a = k) := fun hh => h.1 hh.symm
      simp only [dget, if_neg hne]
      exact ih (by simpa [dkeys] using h.2)

theorem dget_append (m₁ m₂ : Dict) (k : Str) :
    dget (m₁ ++ m₂) k = (dget m₁ k).or (dget m₂ k) := by
  induction m₁ with
  | nil => simp [dget]
  | cons p t ih =>
      obtain ⟨a, b⟩ := p
      by_cases ha : a = k
      · simp [dget, ha]
      · simp [dget, ha, ih]

theorem dget_dinsert_self (m : Dict) (k v : Str) :
    dget (dinsert m k v) k = some v := by
  induction m with
  | nil => simp [dinsert, dget]
  | cons p t ih =>
      obtain ⟨a, b⟩ := p
      by_cases ha : a = k
      · simp [dinsert, ha, dget]
      · simp [dinsert, ha, dget, ih]

theorem dget_dinsert_ne (m : Dict) (k v k' : Str) (hne : k' ≠ k) :
    dget (dinsert m k v) k' = dget m k' := by
  induction m with
  | nil =>
      have hkk : ¬ (k = k') := fun h => hne h.symm
      simp [dinsert, dget, hkk]
  | cons p t ih =>
      obtain ⟨a, b⟩ := p
      by_cases ha : a = k
      · subst ha
        have hak : ¬ (a = k') := fun h => hne h.symm
        simp [dinsert, dget, hak]
      · by_cases ha' : a = k'
        · subst ha'
          simp [dinsert, ha, dget]
        · simp [dinsert, ha, dget, ha', ih]

theorem dinsert_of_not_mem (m : Dict) (k v : Str) (h : k ∉ dkeys m) :
    dinsert m k v = m ++ [(k, v)] := by
  induction m with
  | nil => rfl
  | cons p t ih =>
      obtain ⟨a, b⟩ := p
      simp only [dkeys, List.map_cons, List.mem_cons] at h
      push_neg at h
      have hne : ¬ (a = k) := fun hh => h.1 hh.symm
      simp only [dinsert, if_neg hne, List.cons_append]
      rw [ih (by simpa [dkeys] using h.2)]

-- ==================================================================
-- Lemmas: the parse fold (for C8/C10)
-- ==================================================================

theorem processLine_eq (meta : Dict) (l : Str) :
    processLine meta l =
      match lineKeyVal l with
      | none => meta
      | some (k, v) => dinsert meta k v := rfl

theorem lineKeyVal_skip (l : Str)
    (h : pyStrip l = [] ∨ (pyStrip l).head? = some '#' ∨
      (pyStrip l).findIdx? (fun c => c == ':') = none) :
    lineKeyVal l = none := by
  unfold lineKeyVal
  rcases h with h | h | h
  · simp [h]
  · by_cases h0 : pyStrip l = []
    · simp [h0]
    · simp [h0, h]
  · by_cases h0 : pyStrip l = []
    · simp [h0]
    · by_cases h1 : (pyStrip l).head? = some '#'
      · simp [h0, h1]
      · simp [h0, h1, h]

theorem lastVal_cons (k l : Str) (ls : List Str) :
    lastVal k (l :: ls) =
      match lastVal k ls with
      | some v => some v
      | none =>
          match lineKeyVal l with
          | some (k', v) => if k' = k then some v else none
          | none => none := rfl

theorem dget_foldl_lastVal (k : Str) (ls : List Str) :
    ∀ m : Dict, dget (ls.foldl processLine m) k =
      match lastVal k ls with
      | some v => some v
      | none => dget m k := by
  induction ls with
  | nil => intro m; rfl
  | cons l ls ih =>
      intro m
      show dget (ls.foldl processLine (processLine m l)) k = _
      rw [ih (processLine m l), lastVal_cons]
      cases hlv : lastVal k ls with
      | some v => simp
      | none =>
          simp only
          rw [processLine_eq]
          cases hkv : lineKeyVal l with
          | none => simp
          | some kv =>
              obtain ⟨k', v⟩ := kv
              simp only
              by_cases hk : k' = k
              · subst hk
                simp [dget_dinsert_self]
              · simp [hk, dget_dinsert_ne m k' v k (fun hh => hk hh.symm)]

theorem dget_foldl_isSome (k : Str) (ls : List Str) (m : Dict)
    (h : (dget m k).isSome) : (dget (ls.foldl processLine m) k).isSome := by
  rw [dget_foldl_lastVal]
  cases lastVal k ls <;> simp [h]

-- ==================================================================
-- C8 and C10: the metadata parser
-- ==================================================================

/-- C8: the metadata parser is total over every input document (it is a
total function of the text by construction); when the
delimiter/header/delimiter shape is absent (`fmSplit` fails) the whole
document becomes the body with an empty header; and inside a header
block, blank lines, comment lines, and lines without a colon separator
are skipped rather than being an error. -/
theorem parser_shape_and_skipping (text rawLine : Str) (meta : Dict) :
    (fmSplit text = none → parseFrontmatter text = [(bodyKey, text)])
  ∧ (pyStrip rawLine = [] ∨ (pyStrip rawLine).head? = some '#' ∨
      (pyStrip rawLine).findIdx? (fun c => c == ':') = none →
      processLine meta rawLine = meta) := by
  constructor
  · intro h
    unfold parseFrontmatter
    rw [h]
  · intro h
    rw [processLine_eq, lineKeyVal_skip rawLine h]

/-- C8 witness: a document without the delimiter shape parses to an empty
header with the whole text as body, and a blank line, a comment line and a
colon-free line are all skipped. -/
theorem parser_shape_and_skipping_witness :
    parseFrontmatter (str "no shape here") = [(bodyKey, str "no shape here")]
  ∧ processLine [] (str "   ") = []
  ∧ processLine [] (str "# comment") = []
  ∧ processLine [] (str "malformed line") = [] := by
  refine ⟨(parser_shape_and_skipping (str "no shape here") [] []).1 (by decide),
    (parser_shape_and_skipping [] (str "   ") []).2 (by decide),
    (parser_shape_and_skipping [] (str "# comment") []).2 (by decide),
    (parser_shape_and_skipping [] (str "malformed line") []).2 (by decide)⟩

/-- C10: every parse result binds the reserved key `__body__`; when the
delimiter shape is present and no header line sets `__body__` itself, its
value is the stripped document body (group 2 of the split, stripped — not
the verbatim text); and a header line whose key is literally `__body__`
overwrites the parsed body with that line's (last such line's) value. -/
theorem parser_body_key (text : Str) :
    (dget (parseFrontmatter text) bodyKey).isSome = true
  ∧ (∀ yaml body, fmSplit text = some (yaml, body) →
      (lastVal bodyKey (splitlines yaml) = none →
        dget (parseFrontmatter text) bodyKey = some (pyStrip body))
      ∧ (∀ v, lastVal bodyKey (splitlines yaml) = some v →
        dget (parseFrontmatter text) bodyKey = some v)) := by
  refine ⟨?_, ?_⟩
  · unfold parseFrontmatter
    cases h : fmSplit text with
    | none => simp [dget]
    | some yb =>
        obtain ⟨yaml, body⟩ := yb
        apply dget_foldl_isSome
        simp [dget]
  · intro yaml body h
    unfold parseFrontmatter
    rw [h]
    constructor
    · intro hnone
      rw [dget_foldl_lastVal, hnone]
      simp [dget]
    · intro v hv
      rw [dget_foldl_lastVal, hv]

/-- C10 witness: a plain document yields the stripped body under
`__body__`, and a header line with key `__body__` overwrites it. -/
theorem parser_body_key_witness :
    dget (parseFrontmatter (str "---\na: b\n---\n  real body \n")) bodyKey
      = some (str "real body")
  ∧ dget (parseFrontmatter (str "---\n__body__: X\n---\nreal body")) bodyKey
      = some (str "X") := by
  constructor
  · exact ((parser_body_key (str "---\na: b\n---\n  real body \n")).2
      (str "a: b") (str "real body \n") (by decide)).1 (by decide)
  · exact ((parser_body_key (str "---\n__body__: X\n---\nreal body")).2
      (str "__body__: X") (str "real body") (by decide)).2 (str "X") (by decide)

-- ==================================================================
-- C6: the idempotency guard
-- ==================================================================

/-- C6: after a successful acquire of key `k`, a further acquire of `k`
fails and a further notification for `k` is dropped until `k` is
released; and `on_created` releases the key on every exit path — for any
handler result (normal or exceptional) the `processing` set after the
call equals the set before it, so the suppression window is exactly the
handling of the path. -/
theorem guard_suppression {E A : Type} (k : Str) (s : List Str)
    (handle : Str → Except E A) (isDir : Bool) :
    (k ∉ s → tryAcquire k s = (true, k :: s))
  ∧ (tryAcquire k (k :: s)).1 = false
  ∧ (k ∉ s → release k (k :: s) = s)
  ∧ (k ∈ s → (onCreated isDir k s handle).1 = none)
  ∧ (onCreated isDir k s handle).2 = s
  ∧ (k ∉ s → suffixOf k = str ".md" →
      onCreated false k s handle = (some (handle k), s)) := by
  refine ⟨?_, ?_, ?_, ?_, ?_, ?_⟩
  · intro h
    simp [tryAcquire, h]
  · simp [tryAcquire]
  · intro _
    simp [release]
  · intro h
    unfold onCreated
    by_cases hd : isDir
    · simp [hd]
    · by_cases hs : suffixOf k ≠ str ".md"
      · simp [hd, hs]
      · simp only [hd, if_false, hs, if_pos, tryAcquire, if_pos h]
        simp [hs]
  · unfold onCreated
    by_cases hd : isDir
    · simp [hd]
    · by_cases hs : suffixOf k ≠ str ".md"
      · simp [hd, hs]
      · by_cases hk : k ∈ s
        · simp [hd, hs, tryAcquire, hk]
        · simp [hd, hs, tryAcquire, hk, release]
  · intro hk hs
    unfold onCreated
    simp [hs, tryAcquire, hk, release]

/-- C6 witness: a concrete run through the guard — acquire succeeds on a
fresh key, the re-notification during handling would be dropped, and the
`processing` set is restored after the call. -/
theorem guard_suppression_witness :
    onCreated false (str "a.md") [] (fun _ => Except.ok ()) =
      (some (Except.ok (ε := Unit) ()), [])
  ∧ (tryAcquire (str "a.md") [str "a.md"]).1 = false := by
  refine ⟨(guard_suppression (str "a.md") [] _ false).2.2.2.2.2 (by decide) (by decide),
    (guard_suppression (str "a.md") [] (fun _ => Except.ok (ε := Unit) ()) false).2.1⟩

-- ==================================================================
-- C1: the send-message executor
-- ==================================================================

/-- C1 counterexample: the endpoint guard is a substring test, not a
loopback test — with the endpoint configured to a non-loopback URL that
merely contains `localhost` in its query string, and with valid fields,
the executor issues its network request even though the endpoint is not
loopback-only. -/
theorem sendEmail_counterexample :
    (actionSendEmail (str "f.md")
        [(str "to", str "a@b.com"), (str "subject", str "Hi"), (str "body", str "R")]
        (str "http://evil.example/?q=localhost") false
        (NetOutcome.resp true (str "m1"))).requests ≠ []
  ∧ isLoopbackOnly (str "http://evil.example/?q=localhost") = false := by
  decide

/-- C1 (amended): the executor issues its network request exactly when
`to`, `subject` and the body (the `body` field or else the document body)
are non-empty, `to` contains `@`, the endpoint URL contains `127.0.0.1`
or `localhost` as a substring, and the run is not a dry run; whenever a
validation or the substring guard fails, it returns failure with no
request issued.  The shipped constant endpoint passes the guard and is
loopback-only. -/
theorem sendEmail_validation (fileName : Str) (meta : Dict) (url : Str)
    (dryRun : Bool) (net : NetOutcome) :
    ((actionSendEmail fileName meta url dryRun net).requests ≠ [] ↔
      sendTo meta ≠ [] ∧ sendSubject meta ≠ [] ∧ sendBody meta ≠ [] ∧
      '@' ∈ sendTo meta ∧ urlCheckOk url = true ∧ dryRun = false)
  ∧ (¬(sendTo meta ≠ [] ∧ sendSubject meta ≠ [] ∧ sendBody meta ≠ [] ∧
        '@' ∈ sendTo meta ∧ urlCheckOk url = true) →
      (actionSendEmail fileName meta url dryRun net).ok = false ∧
      (actionSendEmail fileName meta url dryRun net).requests = [])
  ∧ urlCheckOk MCP_EMAIL_URL = true ∧ isLoopbackOnly MCP_EMAIL_URL = true := by
  refine ⟨?_, ?_, by decide, by decide⟩
  · unfold actionSendEmail
    by_cases h1 : sendTo meta = [] ∨ sendSubject meta = [] ∨ sendBody meta = []
    · simp only [if_pos h1]
      constructor
      · intro h; exact absurd rfl h
      · rintro ⟨ht, hs, hb, -⟩
        rcases h1 with h | h | h <;> [exact absurd h ht; exact absurd h hs; exact absurd h hb]
    · simp only [if_neg h1]
      push_neg at h1
      obtain ⟨ht, hs, hb⟩ := h1
      by_cases h2 : '@' ∈ sendTo meta
      · simp only [if_neg (show ¬ ('@' ∉ sendTo meta) from fun hh => hh h2)]
        by_cases h3 : urlCheckOk url
        · simp only [if_neg (show ¬ ¬ (urlCheckOk url = true) from fun hh => hh h3)]
          by_cases h4 : dryRun
          · subst h4
            simp [ht, hs, hb, h2, h3]
          · simp only [Bool.not_eq_true] at h4
            subst h4
            simp only [if_neg (show ¬ (false = true) by simp)]
            cases net with
            | resp ok detail => cases ok <;> simp [ht, hs, hb, h2, h3]
            | httpError code detail => simp [ht, hs, hb, h2, h3]
            | connError reason => simp [ht, hs, hb, h2, h3]
            | exc => simp [ht, hs, hb, h2, h3]
        · rw [if_pos (show ¬ (urlCheckOk url = true) from fun hh => h3 hh)]
          simp only [Bool.not_eq_true] at h3
          simp [h3]
      · rw [if_pos h2]
        simp [h2]
  · intro h
    unfold actionSendEmail
    by_cases h1 : sendTo meta = [] ∨ sendSubject meta = [] ∨ sendBody meta = []
    · simp [if_pos h1]
    · simp only [if_neg h1]
      push_neg at h1
      obtain ⟨ht, hs, hb⟩ := h1
      by_cases h2 : '@' ∈ sendTo meta
      · simp only [if_neg (show ¬ ('@' ∉ sendTo meta) from fun hh => hh h2)]
        by_cases h3 : urlCheckOk url
        · exact absurd ⟨ht, hs, hb, h2, h3⟩ h
        · rw [if_pos (show ¬ (urlCheckOk url = true) from fun hh => h3 hh)]
          simp
      · rw [if_pos h2]
        simp

/-- C1 witness: a directive with a missing `to`, and one whose `to` lacks
an `@`, are both rejected with no request issued. -/
theorem sendEmail_validation_witness :
    (actionSendEmail (str "f.md") [(str "subject", str "Hi"), (str "body", str "B")]
        MCP_EMAIL_URL false (NetOutcome.resp true (str "m1"))).ok = false
  ∧ (actionSendEmail (str "f.md") [(str "subject", str "Hi"), (str "body", str "B")]
        MCP_EMAIL_URL false (NetOutcome.resp true (str "m1"))).requests = []
  ∧ (actionSendEmail (str "f.md")
        [(str "to", str "not-an-email"), (str "subject", str "Hi"), (str "body", str "B")]
        MCP_EMAIL_URL false (NetOutcome.resp true (str "m1"))).requests = [] := by
  refine ⟨?_, ?_, ?_⟩
  · exact ((sendEmail_validation (str "f.md")
      [(str "subject", str "Hi"), (str "body", str "B")] MCP_EMAIL_URL false
      (NetOutcome.resp true (str "m1"))).2.1 (by decide)).1
  · exact ((sendEmail_validation (str "f.md")
      [(str "subject", str "Hi"), (str "body", str "B")] MCP_EMAIL_URL false
      (NetOutcome.resp true (str "m1"))).2.1 (by decide)).2
  · exact ((sendEmail_validation (str "f.md")
      [(str "to", str "not-an-email"), (str "subject", str "Hi"), (str "body", str "B")]
      MCP_EMAIL_URL false (NetOutcome.resp true (str "m1"))).2.1 (by decide)).2

-- ==================================================================
-- C3: action dispatch
-- ==================================================================

theorem executeAction_empty (fileName : Str) (meta : Dict) (url : Str)
    (dryRun : Bool) (net : NetOutcome) (ts : Str) (h : actionTypeOf meta = []) :
    executeAction fileName meta url dryRun net ts = ⟨true, [], [], []⟩ := by
  unfold executeAction
  rw [if_pos h]

theorem executeAction_send (fileName : Str) (meta : Dict) (url : Str)
    (dryRun : Bool) (net : NetOutcome) (ts : Str)
    (h : actionTypeOf meta = str "send_email") :
    executeAction fileName meta url dryRun net ts =
      actionSendEmail fileName meta url dryRun net := by
  unfold executeAction
  rw [if_neg (by rw [h]; decide), if_pos h]

theorem executeAction_placeholder (fileName : Str) (meta : Dict) (url : Str)
    (dryRun : Bool) (net : NetOutcome) (ts : Str)
    (h : actionTypeOf meta ∈ placeholderActions) :
    executeAction fileName meta url dryRun net ts =
      ⟨true, [str "MANUAL_" ++ ts ++ '_' :: stemOf fileName ++ str ".md"], [], []⟩ := by
  have hne : actionTypeOf meta ≠ [] := by
    intro hh
    rw [hh] at h
    revert h
    decide
  have hse : actionTypeOf meta ≠ str "send_email" := by
    intro hh
    rw [hh] at h
    revert h
    decide
  unfold executeAction
  rw [if_neg hne, if_neg hse, if_pos h]
  rfl

theorem executeAction_unknown (fileName : Str) (meta : Dict) (url : Str)
    (dryRun : Bool) (net : NetOutcome) (ts : Str) (h1 : actionTypeOf meta ≠ [])
    (h2 : actionTypeOf meta ∉ str "send_email" :: placeholderActions) :
    executeAction fileName meta url dryRun net ts = ⟨false, [], [], []⟩ := by
  simp only [List.mem_cons, not_or] at h2
  unfold executeAction
  rw [if_neg h1, if_neg h2.1, if_neg h2.2]

/-- C3: dispatch on the trimmed, lower-cased `action_type` is a three-way
case split — an absent/empty action type succeeds with no effect of any
kind; a recognized-but-unimplemented action type succeeds and creates
exactly one new record in the inbox stage; an action type outside the
recognized set is a hard failure with no effect. -/
theorem dispatch_three_way (fileName : Str) (meta : Dict) (url : Str)
    (dryRun : Bool) (net : NetOutcome) (ts : Str) :
    (actionTypeOf meta = [] →
      executeAction fileName meta url dryRun net ts = ⟨true, [], [], []⟩)
  ∧ (actionTypeOf meta ∈ placeholderActions →
      executeAction fileName meta url dryRun net ts =
        ⟨true, [str "MANUAL_" ++ ts ++ '_' :: stemOf fileName ++ str ".md"], [], []⟩)
  ∧ (actionTypeOf meta ≠ [] →
      actionTypeOf meta ∉ str "send_email" :: placeholderActions →
      executeAction fileName meta url dryRun net ts = ⟨false, [], [], []⟩) :=
  ⟨executeAction_empty fileName meta url dryRun net ts,
   executeAction_placeholder fileName meta url dryRun net ts,
   executeAction_unknown fileName meta url dryRun net ts⟩

/-- C3 witness: an empty action type succeeds with no effect; a
mixed-case, padded `Post_LinkedIn` is recognized (trimmed,
case-insensitively) and creates exactly one inbox record; an unknown
action type fails. -/
theorem dispatch_three_way_witness :
    executeAction (str "f.md") [] MCP_EMAIL_URL false (NetOutcome.resp true []) (str "T")
      = ⟨true, [], [], []⟩
  ∧ executeAction (str "f.md") [(str "action_type", str "  Post_LinkedIn ")]
      MCP_EMAIL_URL false (NetOutcome.resp true []) (str "T")
      = ⟨true, [str "MANUAL_T_f.md"], [], []⟩
  ∧ executeAction (str "f.md") [(str "action_type", str "frobnicate")]
      MCP_EMAIL_URL false (NetOutcome.resp true []) (str "T")
      = ⟨false, [], [], []⟩ := by
  refine ⟨(dispatch_three_way (str "f.md") [] MCP_EMAIL_URL false
      (NetOutcome.resp true []) (str "T")).1 (by decide), ?_, ?_⟩
  · have := (dispatch_three_way (str "f.md")
      [(str "action_type", str "  Post_LinkedIn ")] MCP_EMAIL_URL false
      (NetOutcome.resp true []) (str "T")).2.1 (by decide)
    rw [this]
    decide
  · exact (dispatch_three_way (str "f.md") [(str "action_type", str "frobnicate")]
      MCP_EMAIL_URL false (NetOutcome.resp true []) (str "T")).2.2 (by decide) (by decide)

-- ==================================================================
-- C2: approval routing
-- ==================================================================

theorem actionSendEmail_audits (fileName : Str) (meta : Dict) (url : Str)
    (dryRun : Bool) (net : NetOutcome) :
    (hasSuccessAudit (actionSendEmail fileName meta url dryRun net).audits = true ↔
      (actionSendEmail fileName meta url dryRun net).ok = true ∧ dryRun = false)
  ∧ (hasFailedAudit (actionSendEmail fileName meta url dryRun net).audits = true ↔
      (actionSendEmail fileName meta url dryRun net).requests ≠ [] ∧
      (actionSendEmail fileName meta url dryRun net).ok = false) := by
  unfold actionSendEmail
  by_cases h1 : sendTo meta = [] ∨ sendSubject meta = [] ∨ sendBody meta = []
  · simp [if_pos h1, hasSuccessAudit, hasFailedAudit]
  · simp only [if_neg h1]
    by_cases h2 : '@' ∈ sendTo meta
    · simp only [if_neg (show ¬ ('@' ∉ sendTo meta) from fun hh => hh h2)]
      by_cases h3 : urlCheckOk url
      · simp only [if_neg (show ¬ ¬ (urlCheckOk url = true) from fun hh => hh h3)]
        by_cases h4 : dryRun
        · subst h4
          simp [hasSuccessAudit, hasFailedAudit]
        · simp only [Bool.not_eq_true] at h4
          subst h4
          simp only [if_neg (show ¬ (false = true) by simp)]
          cases net with
          | resp ok detail => cases ok <;> simp [hasSuccessAudit, hasFailedAudit]
          | httpError code detail => simp [hasSuccessAudit, hasFailedAudit]
          | connError reason => simp [hasSuccessAudit, hasFailedAudit]
          | exc => simp [hasSuccessAudit, hasFailedAudit]
      · rw [if_pos (show ¬ (urlCheckOk url = true) from fun hh => h3 hh)]
        simp [hasSuccessAudit, hasFailedAudit]
    · rw [if_pos h2]
      simp [hasSuccessAudit, hasFailedAudit]

theorem executeAction_audits (fileName : Str) (meta : Dict) (url : Str)
    (dryRun : Bool) (net : NetOutcome) (ts : Str) :
    (hasSuccessAudit (executeAction fileName meta url dryRun net ts).audits = true ↔
      actionTypeOf meta = str "send_email" ∧
      (executeAction fileName meta url dryRun net ts).ok = true ∧ dryRun = false)
  ∧ (hasFailedAudit (executeAction fileName meta url dryRun net ts).audits = true ↔
      actionTypeOf meta = str "send_email" ∧
      (executeAction fileName meta url dryRun net ts).requests ≠ [] ∧
      (executeAction fileName meta url dryRun net ts).ok = false) := by
  by_cases h0 : actionTypeOf meta = []
  · rw [executeAction_empty fileName meta url dryRun net ts h0]
    have hne : actionTypeOf meta ≠ str "send_email" := by rw [h0]; decide
    simp [hasSuccessAudit, hasFailedAudit, hne]
  · by_cases hse : actionTypeOf meta = str "send_email"
    · rw [executeAction_send fileName meta url dryRun net ts hse]
      have h := actionSendEmail_audits fileName meta url dryRun net
      constructor
      · rw [h.1]
        simp [hse]
      · rw [h.2]
        simp [hse]
    · by_cases hp : actionTypeOf meta ∈ placeholderActions
      · rw [executeAction_placeholder fileName meta url dryRun net ts hp]
        simp [hasSuccessAudit, hasFailedAudit, hse]
      · rw [executeAction_unknown fileName meta url dryRun net ts h0
          (by simp only [List.mem_cons, not_or]; exact ⟨hse, hp⟩)]
        simp [hasSuccessAudit, hasFailedAudit, hse]

theorem handleApproval_eq (fileName content url : Str) (dryRun : Bool)
    (net : NetOutcome) (ts : Str) (st : VaultState)
    (hmem : fileName ∈ st.approvedDir) :
    handleApproval fileName content url dryRun net ts st =
      if actionTypeOf (parseFrontmatter content) ≠ [] then
        (let r := executeAction fileName (parseFrontmatter content) url dryRun net ts
         if r.ok then
           { needsAction := st.needsAction ++ r.newInbox
             approvedDir := st.approvedDir.erase fileName
             doneDir := (moveFile fileName [] st.doneDir).2
             logs := (st.logs ++ [AuditEntry.approvalLog fileName]) ++ r.audits
             sent := st.sent ++ r.requests }
         else
           { needsAction := (st.needsAction ++ r.newInbox) ++ [alertName fileName ts]
             approvedDir := st.approvedDir
             doneDir := st.doneDir
             logs := (st.logs ++ [AuditEntry.approvalLog fileName]) ++ r.audits
             sent := st.sent ++ r.requests })
      else
        { needsAction := st.needsAction
          approvedDir := st.approvedDir.erase fileName
          doneDir := (moveFile fileName [] st.doneDir).2
          logs := st.logs ++ [AuditEntry.approvalLog fileName]
          sent := st.sent } := by
  unfold handleApproval
  rw [if_pos hmem]

/-- C2 counterexample: a record approved with no `action_type` succeeds
and is moved to Completed, but no success audit entry is written (only
the unconditional approval log); and a record with an unknown
`action_type` fails and produces the inbox alert, but no failure audit
entry is written.  So "on overall success/failure a success/failure
audit entry is written" fails on the code. -/
theorem approval_routing_counterexample :
    (handleApproval (str "A.md") (str "hello") MCP_EMAIL_URL false
        (NetOutcome.resp true []) (str "T") ⟨[], [str "A.md"], [], [], []⟩
      = ⟨[], [], [str "A.md"], [AuditEntry.approvalLog (str "A.md")], []⟩)
  ∧ hasSuccessAudit [AuditEntry.approvalLog (str "A.md")] = false
  ∧ (handleApproval (str "A.md") (str "---\naction_type: frobnicate\n---\nB")
        MCP_EMAIL_URL false (NetOutcome.resp true []) (str "T")
        ⟨[], [str "A.md"], [], [], []⟩
      = ⟨[str "ALERT_FAILED_T_A.md"], [str "A.md"], [],
         [AuditEntry.approvalLog (str "A.md")], []⟩)
  ∧ hasFailedAudit [AuditEntry.approvalLog (str "A.md")] = false := by
  decide

/-- C2 (amended): for every record handled by the approval dispatcher —
on overall success the record is moved to Completed (leaving Approved),
with the action's inbox records, audit entries and requests appended; on
overall failure the record remains in Approved and exactly one new alert
record is created in the inbox.  A success audit entry is written exactly
when the action was a send-message that reached the network call and got
a success response; a failure audit entry exactly when the send-message
network call was reached and failed — not on validation failures,
unknown action types, placeholder actions, or the no-action path. -/
theorem approval_routing (fileName content url : Str) (dryRun : Bool)
    (net : NetOutcome) (ts : Str) (st st' : VaultState) (meta : Dict)
    (r : ActionResult)
    (hmem : fileName ∈ st.approvedDir)
    (hmeta : meta = parseFrontmatter content)
    (hr : r = executeAction fileName meta url dryRun net ts)
    (hst : st' = handleApproval fileName content url dryRun net ts st) :
    (r.ok = true →
        st'.approvedDir = st.approvedDir.erase fileName
      ∧ st'.doneDir = (moveFile fileName [] st.doneDir).2
      ∧ st'.needsAction = st.needsAction ++ r.newInbox
      ∧ st'.logs = st.logs ++ AuditEntry.approvalLog fileName :: r.audits
      ∧ st'.sent = st.sent ++ r.requests)
  ∧ (r.ok = false →
        st'.approvedDir = st.approvedDir
      ∧ st'.doneDir = st.doneDir
      ∧ st'.needsAction = st.needsAction ++ r.newInbox ++ [alertName fileName ts]
      ∧ st'.logs = st.logs ++ AuditEntry.approvalLog fileName :: r.audits
      ∧ st'.sent = st.sent ++ r.requests)
  ∧ (hasSuccessAudit r.audits = true ↔
      actionTypeOf meta = str "send_email" ∧ r.ok = true ∧ dryRun = false)
  ∧ (hasFailedAudit r.audits = true ↔
      actionTypeOf meta = str "send_email" ∧ r.requests ≠ [] ∧ r.ok = false) := by
  subst hmeta
  subst hr
  subst hst
  rw [handleApproval_eq fileName content url dryRun net ts st hmem]
  refine ⟨?_, ?_, (executeAction_audits fileName _ url dryRun net ts).1,
    (executeAction_audits fileName _ url dryRun net ts).2⟩ <;>
    intro hok <;>
    by_cases ha : actionTypeOf (parseFrontmatter content) = []
  · rw [if_neg (show ¬ (actionTypeOf (parseFrontmatter content) ≠ []) from
      fun hh => hh ha)]
    rw [executeAction_empty fileName _ url dryRun net ts ha]
    simp
  · rw [if_pos ha]
    simp only [if_pos hok]
    simp [List.append_assoc]
  · rw [executeAction_empty fileName _ url dryRun net ts ha] at hok
    cases hok
  · rw [if_pos ha]
    rw [if_neg (show ¬ ((executeAction fileName (parseFrontmatter content)
      url dryRun net ts).ok = true) by rw [hok]; simp)]
    simp [List.append_assoc]

/-- C2 witness: a send-message approval with a successful network
response is moved to Completed with a success audit entry; the same
record with a connection error stays in Approved with a failure audit
entry and exactly one inbox alert. -/
theorem approval_routing_witness :
    (handleApproval (str "A.md")
        (str "---\naction_type: send_email\nto: alice@example.com\nsubject: \"Hi\"\nbody: \"Report\"\n---\n")
        MCP_EMAIL_URL false (NetOutcome.resp true (str "m1")) (str "T")
        ⟨[], [str "A.md"], [], [], []⟩).doneDir
      = (moveFile (str "A.md") [] []).2
  ∧ (handleApproval (str "A.md")
        (str "---\naction_type: send_email\nto: alice@example.com\nsubject: \"Hi\"\nbody: \"Report\"\n---\n")
        MCP_EMAIL_URL false (NetOutcome.connError (str "refused")) (str "T")
        ⟨[], [str "A.md"], [], [], []⟩).needsAction
      = [] ++ (executeAction (str "A.md")
          (parseFrontmatter (str "---\naction_type: send_email\nto: alice@example.com\nsubject: \"Hi\"\nbody: \"Report\"\n---\n"))
          MCP_EMAIL_URL false (NetOutcome.connError (str "refused")) (str "T")).newInbox
        ++ [alertName (str "A.md") (str "T")] := by
  constructor
  · exact ((approval_routing (str "A.md")
      (str "---\naction_type: send_email\nto: alice@example.com\nsubject: \"Hi\"\nbody: \"Report\"\n---\n")
      MCP_EMAIL_URL false (NetOutcome.resp true (str "m1")) (str "T")
      ⟨[], [str "A.md"], [], [], []⟩ _ _ _ (by decide) rfl rfl rfl).1
      (by decide)).2.1
  · exact ((approval_routing (str "A.md")
      (str "---\naction_type: send_email\nto: alice@example.com\nsubject: \"Hi\"\nbody: \"Report\"\n---\n")
      MCP_EMAIL_URL false (NetOutcome.connError (str "refused")) (str "T")
      ⟨[], [str "A.md"], [], [], []⟩ _ _ _ (by decide) rfl rfl rfl).2.1
      (by decide)).2.2.1

-- ==================================================================
-- C4: collision-free moves (`move_file`)
-- ==================================================================

theorem valFold_shift (l : List Char) :
    ∀ a : Nat, valFold a l = a * 10 ^ l.length + valFold 0 l := by
  induction l with
  | nil => intro a; simp [valFold]
  | cons c t ih =>
      intro a
      show valFold (a * 10 + digitVal c) t = _
      rw [ih (a * 10 + digitVal c)]
      have h0 : valFold 0 (c :: t) = valFold (digitVal c) t := by
        simp [valFold]
      rw [h0, ih (digitVal c)]
      simp [List.length_cons, pow_succ]
      ring

theorem digitVal_digitChar : ∀ m, m < 10 → digitVal (Nat.digitChar m) = m := by
  decide

theorem toDigitsCore_val :
    ∀ (fuel n : Nat) (ds : List Char), n < fuel →
      valFold 0 (Nat.toDigitsCore 10 fuel n ds) = n * 10 ^ ds.length + valFold 0 ds := by
  intro fuel
  induction fuel with
  | zero => intro n ds h; omega
  | succ fuel ih =>
      intro n ds h
      show valFold 0 (Nat.toDigitsCore 10 (fuel + 1) n ds) = _
      rw [Nat.toDigitsCore]
      by_cases h0 : n / 10 = 0
      · rw [if_pos h0]
        have hn : n < 10 := by omega
        have hv : valFold 0 (Nat.digitChar (n % 10) :: ds)
            = valFold (digitVal (Nat.digitChar (n % 10))) ds := by
          simp [valFold]
        rw [hv, digitVal_digitChar (n % 10) (Nat.mod_lt n (by omega)),
          valFold_shift ds (n % 10), Nat.mod_eq_of_lt hn]
      · rw [if_neg h0]
        have hlt : n / 10 < fuel := by
          have h1 : 0 < n := by
            by_contra hz
            have : n = 0 := by omega
            subst this
            simp at h0
          have := Nat.div_lt_self h1 (by omega : 1 < 10)
          omega
        rw [ih (n / 10) (Nat.digitChar (n % 10) :: ds) hlt]
        have hds : valFold 0 (Nat.digitChar (n % 10) :: ds)
            = n % 10 * 10 ^ ds.length + valFold 0 ds := by
          have : valFold 0 (Nat.digitChar (n % 10) :: ds)
              = valFold (digitVal (Nat.digitChar (n % 10))) ds := by
            simp [valFold]
          rw [this, digitVal_digitChar (n % 10) (Nat.mod_lt n (by omega)),
            valFold_shift ds (n % 10)]
        rw [hds]
        have hmod : 10 * (n / 10) + n % 10 = n := Nat.div_add_mod n 10
        have hexp : (10 : Nat) ^ (ds.length + 1) = 10 ^ ds.length * 10 := pow_succ 10 ds.length
        simp only [List.length_cons, hexp]
        have hring : n / 10 * (10 ^ ds.length * 10) + (n % 10 * 10 ^ ds.length + valFold 0 ds)
            = (10 * (n / 10) + n % 10) * 10 ^ ds.length + valFold 0 ds := by ring
        rw [hring, hmod]

theorem valFold_repr (n : Nat) : valFold 0 (Nat.repr n).data = n := by
  show valFold 0 (Nat.toDigits 10 n).asString.data = n
  have hdata : (Nat.toDigits 10 n).asString.data = Nat.toDigits 10 n := rfl
  rw [hdata]
  show valFold 0 (Nat.toDigitsCore 10 (n + 1) n []) = n
  rw [toDigitsCore_val (n + 1) n [] (Nat.lt_succ_self n)]
  simp [valFold]

theorem nextCand_inj (stem sfx : Str) (j k : Nat)
    (h : nextCand stem sfx j = nextCand stem sfx k) : j = k := by
  unfold nextCand at h
  simp only [List.append_assoc, List.cons_append, List.append_cancel_left_eq,
    List.cons.injEq, true_and] at h
  have h3 : (Nat.repr j).data = (Nat.repr k).data := List.append_cancel_right h
  have := congrArg (valFold 0) h3
  rwa [valFold_repr, valFold_repr] at this

theorem findFree_none_mem (stem sfx : Str) (dir : List Str) :
    ∀ fuel k, findFree stem sfx dir fuel k = none →
      ∀ j, k ≤ j → j < k + fuel → nextCand stem sfx j ∈ dir := by
  intro fuel
  induction fuel with
  | zero => intro k _ j h1 h2; omega
  | succ fuel ih =>
      intro k hnone j h1 h2
      unfold findFree at hnone
      by_cases hc : nextCand stem sfx k ∈ dir
      · rw [if_pos hc] at hnone
        by_cases hj : j = k
        · subst hj; exact hc
        · exact ih (k + 1) hnone j (by omega) (by omega)
      · rw [if_neg hc] at hnone
        cases hnone

theorem findFree_some_not_mem (stem sfx : Str) (dir : List Str) :
    ∀ fuel k c, findFree stem sfx dir fuel k = some c → c ∉ dir := by
  intro fuel
  induction fuel with
  | zero => intro k c h; cases h
  | succ fuel ih =>
      intro k c h
      unfold findFree at h
      by_cases hc : nextCand stem sfx k ∈ dir
      · rw [if_pos hc] at h
        exact ih (k + 1) c h
      · rw [if_neg hc] at h
        cases h
        exact hc

theorem findFree_some_spec (stem sfx : Str) (dir : List Str) :
    ∀ fuel k c, findFree stem sfx dir fuel k = some c →
      ∃ j, k ≤ j ∧ c = nextCand stem sfx j ∧
        ∀ i, k ≤ i → i < j → nextCand stem sfx i ∈ dir := by
  intro fuel
  induction fuel with
  | zero => intro k c h; cases h
  | succ fuel ih =>
      intro k c h
      unfold findFree at h
      by_cases hc : nextCand stem sfx k ∈ dir
      · rw [if_pos hc] at h
        obtain ⟨j, hj1, hj2, hj3⟩ := ih (k + 1) c h
        refine ⟨j, by omega, hj2, ?_⟩
        intro i hi1 hi2
        by_cases hik : i = k
        · subst hik; exact hc
        · exact hj3 i (by omega) hi2
      · rw [if_neg hc] at h
        cases h
        exact ⟨k, Nat.le_refl k, rfl, fun i h1 h2 => absurd h2 (by omega)⟩

theorem findFree_isSome (stem sfx : Str) (dir : List Str) :
    findFree stem sfx dir (dir.length + 1) 1 ≠ none := by
  intro hnone
  have hmem := findFree_none_mem stem sfx dir (dir.length + 1) 1 hnone
  have hsub : ((List.range (dir.length + 1)).map
      (fun i => nextCand stem sfx (1 + i))) ⊆ dir := by
    intro x hx
    obtain ⟨i, hi, rfl⟩ := List.mem_map.mp hx
    exact hmem (1 + i) (by omega) (by have := List.mem_range.mp hi; omega)
  have hnodup : ((List.range (dir.length + 1)).map
      (fun i => nextCand stem sfx (1 + i))).Nodup := by
    refine List.Nodup.map ?_ (List.nodup_range _)
    intro a b hab
    have := nextCand_inj stem sfx (1 + a) (1 + b) hab
    omega
  have hle := (hnodup.subperm hsub).length_le
  simp at hle

theorem moveFile_spec (srcName pre : Str) (dir : List Str) :
    (moveFile srcName pre dir).1 ∉ dir ∧
    (moveFile srcName pre dir).2 = dir ++ [(moveFile srcName pre dir).1] := by
  unfold moveFile
  by_cases h : (if pre ≠ [] then pre ++ srcName else srcName) ∈ dir
  · rw [if_pos h]
    refine ⟨?_, rfl⟩
    cases hf : findFree (stemOf srcName) (suffixOf srcName) dir (dir.length + 1) 1 with
    | none => exact absurd hf (findFree_isSome _ _ _)
    | some c =>
        simp only [hf, Option.getD_some]
        exact findFree_some_not_mem _ _ dir _ 1 c hf
  · rw [if_neg h]
    exact ⟨h, rfl⟩

/-- C4: `move_file` never overwrites — the chosen destination name is not
already present in the destination directory, and the move only adds that
name; hence two successive moves that would collide produce two distinct
files, both present afterwards, neither overwritten.  When the preferred
name is taken, the chosen name is `stem_k.suffix` for the first free
counter `k ≥ 1` (every earlier counter being taken). -/
theorem moveFile_no_overwrite (src1 pre1 src2 pre2 : Str) (dir : List Str) :
    (moveFile src1 pre1 dir).1 ∉ dir
  ∧ (moveFile src1 pre1 dir).2 = dir ++ [(moveFile src1 pre1 dir).1]
  ∧ (moveFile src2 pre2 (moveFile src1 pre1 dir).2).1 ≠ (moveFile src1 pre1 dir).1
  ∧ (moveFile src1 pre1 dir).1 ∈ (moveFile src2 pre2 (moveFile src1 pre1 dir).2).2
  ∧ (moveFile src2 pre2 (moveFile src1 pre1 dir).2).1
      ∈ (moveFile src2 pre2 (moveFile src1 pre1 dir).2).2
  ∧ ((if pre1 ≠ [] then pre1 ++ src1 else src1) ∈ dir →
      ∃ k, 1 ≤ k ∧ (moveFile src1 pre1 dir).1 = nextCand (stemOf src1) (suffixOf src1) k
        ∧ ∀ i, 1 ≤ i → i < k → nextCand (stemOf src1) (suffixOf src1) i ∈ dir) := by
  obtain ⟨h1, h2⟩ := moveFile_spec src1 pre1 dir
  obtain ⟨h3, h4⟩ := moveFile_spec src2 pre2 (moveFile src1 pre1 dir).2
  refine ⟨h1, h2, ?_, ?_, ?_, ?_⟩
  · intro heq
    apply h3
    rw [heq, h2]
    simp
  · rw [h4, h2]
    simp
  · rw [h4]
    simp
  · intro hcoll
    unfold moveFile
    rw [if_pos hcoll]
    cases hf : findFree (stemOf src1) (suffixOf src1) dir (dir.length + 1) 1 with
    | none => exact absurd hf (findFree_isSome _ _ _)
    | some c =>
        simp only [hf, Option.getD_some]
        obtain ⟨j, hj1, hj2, hj3⟩ := findFree_some_spec _ _ dir _ 1 c hf
        exact ⟨j, hj1, hj2, hj3⟩

/-- C4 witness: moving two records both named `x.md` into the same
directory produces `x.md` and then `x_1.md` — distinct names, nothing
overwritten, and the collision is resolved at the first free counter. -/
theorem moveFile_no_overwrite_witness :
    (moveFile (str "x.md") [] []).1 = str "x.md"
  ∧ (moveFile (str "x.md") [] [str "x.md"]).1 = str "x_1.md"
  ∧ (moveFile (str "x.md") [] [str "x.md"]).1 ≠ str "x.md"
  ∧ (∃ k, 1 ≤ k ∧ (moveFile (str "x.md") [] [str "x.md"]).1
        = nextCand (stemOf (str "x.md")) (suffixOf (str "x.md")) k
      ∧ ∀ i, 1 ≤ i → i < k →
          nextCand (stemOf (str "x.md")) (suffixOf (str "x.md")) i ∈ [str "x.md"]) := by
  refine ⟨by decide, by decide, by decide, ?_⟩
  exact (moveFile_no_overwrite (str "x.md") [] (str "x.md") [] [str "x.md"]).2.2.2.2.2
    (by decide)

-- ==================================================================
-- C5: failure batches (`move_to_error`)
-- ==================================================================

theorem treeGet_treeSet_self (t : DirTree) (d : Str) (fs : List Str) :
    treeGet (treeSet t d fs) d = some fs := by
  induction t with
  | nil => simp [treeSet, treeGet]
  | cons p t ih =>
      obtain ⟨n, gs⟩ := p
      by_cases hn : n = d
      · simp [treeSet, hn, treeGet]
      · simp [treeSet, hn, treeGet, ih]

theorem errDir_inj (ts1 ts2 : Str) (h : str "Error_" ++ ts1 = str "Error_" ++ ts2) :
    ts1 = ts2 := List.append_cancel_left h

/-- C5 counterexample: two failures within the same clock second (equal
`%Y%m%d_%H%M%S` timestamps) share the batch subdirectory, and moving the
same record name again replaces the existing file — so "a distinct
subdirectory created per call" and "no existing file overwritten" fail on
the code. -/
theorem moveToError_counterexample :
    (moveToError (str "a.md") (str "20260101_120000")
        ((moveToError (str "a.md") (str "20260101_120000") []).1.2)).1.1
      = (moveToError (str "a.md") (str "20260101_120000") []).1.1
  ∧ (moveToError (str "a.md") (str "20260101_120000")
        ((moveToError (str "a.md") (str "20260101_120000") []).1.2)).2 = true := by
  decide

/-- C5 (amended): a failed record is moved into the batch subdirectory
`Error_{timestamp}` under the audit-log directory, and lands inside it;
two calls with distinct timestamps use distinct batch subdirectories; a
call whose batch subdirectory does not yet exist overwrites nothing.  Two
calls within the same timestamp second share the subdirectory, and a
same-named record then replaces the existing file (the counterexample). -/
theorem moveToError_batches (task1 task2 ts1 ts2 : Str) (tree : DirTree) :
    (moveToError task1 ts1 tree).1.1 = str "Error_" ++ ts1
  ∧ (ts1 ≠ ts2 → (moveToError task1 ts1 tree).1.1 ≠ (moveToError task2 ts2 tree).1.1)
  ∧ (treeGet tree (str "Error_" ++ ts1) = none → (moveToError task1 ts1 tree).2 = false)
  ∧ task1 ∈ ((treeGet (moveToError task1 ts1 tree).1.2 (str "Error_" ++ ts1)).getD []) := by
  refine ⟨rfl, ?_, ?_, ?_⟩
  · intro hne heq
    exact hne (errDir_inj ts1 ts2 heq)
  · intro hnone
    unfold moveToError
    simp only [hnone, Option.getD_none]
    simp
  · unfold moveToError
    simp only
    rw [treeGet_treeSet_self]
    by_cases hmem : task1 ∈ (treeGet tree (str "Error_" ++ ts1)).getD []
    · simp [hmem]
    · simp [hmem]

/-- C5 witness: moving a failed record under a fresh timestamp creates the
batch directory, places the record there, and overwrites nothing; a
second failure one second later goes to a distinct batch directory. -/
theorem moveToError_batches_witness :
    (moveToError (str "a.md") (str "20260101_120000") []).1.1
      = str "Error_" ++ str "20260101_120000"
  ∧ (moveToError (str "a.md") (str "20260101_120000") []).2 = false
  ∧ (str "a.md") ∈ ((treeGet (moveToError (str "a.md") (str "20260101_120000") []).1.2
      (str "Error_" ++ str "20260101_120000")).getD [])
  ∧ (moveToError (str "a.md") (str "20260101_120000") []).1.1
      ≠ (moveToError (str "b.md") (str "20260101_120001") []).1.1 := by
  have h := moveToError_batches (str "a.md") (str "b.md")
    (str "20260101_120000") (str "20260101_120001") []
  exact ⟨h.1, h.2.2.1 (by decide), h.2.2.2, h.2.1 (by decide)⟩

-- ==================================================================
-- C9: backlog sweep ordering
-- ==================================================================

theorem strLe_trans : ∀ a b c : Str, strLe a b = true → strLe b c = true →
    strLe a c = true := by
  intro a
  induction a with
  | nil => intro b c _ _; rfl
  | cons x s ih =>
      intro b c h1 h2
      cases b with
      | nil => simp [strLe] at h1
      | cons y t =>
          cases c with
          | nil => simp [strLe] at h2
          | cons z u =>
              simp only [strLe] at h1 h2 ⊢
              by_cases hxy : x = y
              · subst hxy
                rw [if_pos rfl] at h1
                by_cases hyz : x = z
                · subst hyz
                  rw [if_pos rfl] at h2
                  rw [if_pos rfl]
                  exact ih t u h1 h2
                · rw [if_neg hyz] at h2
                  rw [if_neg hyz]
                  exact h2
              · rw [if_neg hxy] at h1
                have hlt1 : x < y := of_decide_eq_true h1
                by_cases hyz : y = z
                · subst hyz
                  rw [if_neg hxy]
                  exact h1
                · rw [if_neg hyz] at h2
                  have hlt2 : y < z := of_decide_eq_true h2
                  have hlt : x < z := lt_trans hlt1 hlt2
                  rw [if_neg (ne_of_lt hlt)]
                  exact decide_eq_true hlt

theorem strLe_total : ∀ a b : Str, strLe a b = true ∨ strLe b a = true := by
  intro a
  induction a with
  | nil => intro b; left; rfl
  | cons x s ih =>
      intro b
      cases b with
      | nil => right; rfl
      | cons y t =>
          simp only [strLe]
          by_cases hxy : x = y
          · subst hxy
            rw [if_pos rfl, if_pos rfl]
            exact ih t
          · rw [if_neg hxy, if_neg (fun h => hxy h.symm)]
            rcases lt_or_gt_of_ne hxy with h | h
            · left; exact decide_eq_true h
            · right; exact decide_eq_true h

instance : IsTrans Str strLeP := ⟨fun a b c => strLe_trans a b c⟩

instance : IsTotal Str strLeP := ⟨fun a b => strLe_total a b⟩

theorem handleNewTask_trace (out : Str → StepOutcome) (ts : Str)
    (st : ProcState) (n : Str) :
    (handleNewTask out ts st n).trace = st.trace ++ [n] := by
  simp only [handleNewTask]
  split_ifs <;> rfl

theorem foldl_handleNewTask_trace (out : Str → StepOutcome) (ts : Str)
    (names : List Str) : ∀ st : ProcState,
    (names.foldl (handleNewTask out ts) st).trace = st.trace ++ names := by
  induction names with
  | nil => intro st; simp
  | cons n ns ih =>
      intro st
      show (ns.foldl (handleNewTask out ts) (handleNewTask out ts st n)).trace = _
      rw [ih, handleNewTask_trace]
      simp

theorem liveStep_nil_set (out : Str → StepOutcome) (ts : Str)
    (st : ProcState) (e : LiveEvent) :
    liveStep out ts (st, []) e =
      (if liveValid e = true then handleNewTask out ts st e.name else st, []) := by
  unfold liveStep liveValid
  by_cases hd : e.isDir
  · simp [hd]
  · by_cases hs : suffixOf e.name = str ".md"
    · have hacq : tryAcquire e.name [] = (true, [e.name]) := by
        simp [tryAcquire]
      simp [hd, hs, hacq, release]
    · simp [hd, hs]

theorem runLive_nil_set (out : Str → StepOutcome) (ts : Str)
    (events : List LiveEvent) : ∀ st : ProcState,
    runLive out ts events st [] =
      (((events.filter liveValid).map LiveEvent.name).foldl (handleNewTask out ts) st,
       []) := by
  induction events with
  | nil => intro st; rfl
  | cons e es ih =>
      intro st
      show runLive out ts es (liveStep out ts (st, []) e).1
        (liveStep out ts (st, []) e).2 = _
      rw [liveStep_nil_set]
      by_cases hv : liveValid e = true
      · simp only [if_pos hv]
        rw [ih]
        simp [List.filter_cons, hv]
      · simp only [if_neg hv]
        rw [ih]
        have hv' : liveValid e = false := by revert hv; cases liveValid e <;> simp
        simp [List.filter_cons, hv']

/-- C9: at startup all records already in the inbox stage are handled in
ascending filename order (the handled prefix is the sorted, permuted
inbox listing), every backlog record is handled before any
live-notification record, and both phases drive the very same
`handleNewTask` (`_handle_new_task`) — the whole run is one fold of it
over the sorted backlog names followed by the valid live names. -/
theorem backlog_before_live (out : Str → StepOutcome) (ts : Str)
    (events : List LiveEvent) (st : ProcState) :
    ((mainRun out ts events st).1.trace
      = st.trace ++ pySorted (globMd st.inbox)
          ++ (events.filter liveValid).map LiveEvent.name)
  ∧ List.Sorted strLeP (pySorted (globMd st.inbox))
  ∧ (pySorted (globMd st.inbox)).Perm (globMd st.inbox)
  ∧ (mainRun out ts events st).1
      = ((events.filter liveValid).map LiveEvent.name).foldl (handleNewTask out ts)
          ((pySorted (globMd st.inbox)).foldl (handleNewTask out ts) st) := by
  have hmain : mainRun out ts events st =
      (((events.filter liveValid).map LiveEvent.name).foldl (handleNewTask out ts)
        (processBacklog out ts st), []) := by
    unfold mainRun
    rw [runLive_nil_set]
  have htrace : (mainRun out ts events st).1.trace
      = st.trace ++ pySorted (globMd st.inbox)
        ++ (events.filter liveValid).map LiveEvent.name := by
    rw [hmain]
    show (((events.filter liveValid).map LiveEvent.name).foldl (handleNewTask out ts)
      (processBacklog out ts st)).trace = _
    rw [foldl_handleNewTask_trace]
    unfold processBacklog
    rw [foldl_handleNewTask_trace]
  have hsorted : List.Sorted strLeP (pySorted (globMd st.inbox)) :=
    List.sorted_insertionSort strLeP (globMd st.inbox)
  have hperm : (pySorted (globMd st.inbox)).Perm (globMd st.inbox) :=
    List.perm_insertionSort strLeP (globMd st.inbox)
  have hfold : (mainRun out ts events st).1
      = ((events.filter liveValid).map LiveEvent.name).foldl (handleNewTask out ts)
          ((pySorted (globMd st.inbox)).foldl (handleNewTask out ts) st) := by
    rw [hmain]
    show ((events.filter liveValid).map LiveEvent.name).foldl (handleNewTask out ts)
      (processBacklog out ts st) = _
    unfold processBacklog
    rfl
  exact ⟨htrace, hsorted, hperm, hfold⟩

-- ==================================================================
-- C7: codec round trip — the closing-delimiter search
-- ==================================================================

theorem findSubIdx_pos (pat s : Str) (h : pat.isPrefixOf s = true) :
    findSubIdx pat s = some 0 := by
  cases s with
  | nil => simp [findSubIdx, h]
  | cons c t => simp [findSubIdx, h]

theorem findSubIdx_cons_neg (pat : Str) (c : Char) (t : Str)
    (h : pat.isPrefixOf (c :: t) = false) :
    findSubIdx pat (c :: t) = (findSubIdx pat t).map (· + 1) := by
  simp [findSubIdx, h]

theorem isPrefixOf_nlDashes_cons (c : Char) (t : Str) (h : c ≠ '\n') :
    nlDashes.isPrefixOf (c :: t) = false := by
  show (('\n' : Char) :: '-' :: '-' :: '-' :: []).isPrefixOf (c :: t) = false
  simp [List.isPrefixOf]
  exact fun hc => absurd hc.symm h

theorem findSubIdx_chunk (chunk : Str) (hch : ∀ c ∈ chunk, c ≠ '\n') (s : Str) :
    findSubIdx nlDashes (chunk ++ s) =
      (findSubIdx nlDashes s).map (· + chunk.length) := by
  induction chunk with
  | nil =>
      simp only [List.nil_append, List.length_nil]
      cases findSubIdx nlDashes s <;> simp
  | cons c t ih =>
      have hc : c ≠ '\n' := hch c (List.mem_cons_self c t)
      rw [List.cons_append, findSubIdx_cons_neg nlDashes c (t ++ s)
        (isPrefixOf_nlDashes_cons c (t ++ s) hc)]
      rw [ih (fun x hx => hch x (List.mem_cons_of_mem c hx))]
      cases findSubIdx nlDashes s
      · simp
      · simp
        omega

theorem isPrefixOf_nlDashes_close (s : Str) :
    nlDashes.isPrefixOf ('\n' :: '-' :: '-' :: '-' :: s) = true := by
  simp [nlDashes, List.isPrefixOf]

theorem goodKey_line_chars (k v : Str) (hk : goodKey k) (hv : goodVal v) :
    ∀ c ∈ lineOf (k, v), c ≠ '\n' := by
  intro c hc
  unfold lineOf at hc
  simp only [List.mem_append, List.mem_cons] at hc
  rcases hc with h | h | h | h
  · intro he
    subst he
    exact hk.2.2.2.1 h
  · subst h; decide
  · subst h; decide
  · intro he
    subst he
    exact hv.2.1 h

theorem not_dashes_prefix_line (k v : Str) (hk : goodKey k) (r : Str) :
    dashes3.isPrefixOf (lineOf (k, v) ++ r) = false := by
  have hne := hk.1
  have hdash := hk.2.2.2.2.2.2.2.2.1
  unfold lineOf
  match k, hne with
  | [c1], _ =>
      simp only [List.cons_append, List.nil_append]
      simp [dashes3, List.isPrefixOf]
  | [c1, c2], _ =>
      simp only [List.cons_append, List.nil_append]
      simp [dashes3, List.isPrefixOf]
  | c1 :: c2 :: c3 :: k3, _ =>
      simp only [List.cons_append]
      simp only [dashes3, List.isPrefixOf] at hdash ⊢
      simpa using hdash

-- ==================================================================
-- C7: structure of the serialized document
-- ==================================================================

theorem yamlOf_single (kv : Str × Str) : yamlOf [kv] = lineOf kv := rfl

theorem yamlOf_cons (kv : Str × Str) (H : Dict) (h : H ≠ []) :
    yamlOf (kv :: H) = lineOf kv ++ '\n' :: yamlOf H := by
  cases H with
  | nil => exact absurd rfl h
  | cons kv2 H2 => rfl

theorem blockOf_cons (kv : Str × Str) (H : Dict) :
    blockOf (kv :: H) = lineOf kv ++ '\n' :: blockOf H := by
  simp [blockOf]

theorem blockOf_eq (H : Dict) (h : H ≠ []) :
    blockOf H = yamlOf H ++ ['\n'] := by
  induction H with
  | nil => exact absurd rfl h
  | cons kv H ih =>
      cases H with
      | nil => simp [blockOf, yamlOf_single]
      | cons kv2 H2 =>
          rw [blockOf_cons, ih (by simp), yamlOf_cons kv (kv2 :: H2) (by simp)]
          simp

theorem isPrefixOf_append_self (l t : Str) : l.isPrefixOf (l ++ t) = true := by
  induction l with
  | nil => simp [List.isPrefixOf]
  | cons c l ih => simp [List.isPrefixOf, ih]

theorem isPrefixOf_nlDashes_cons_nl (L : Str) :
    nlDashes.isPrefixOf ('\n' :: L) = dashes3.isPrefixOf L := by
  show (('\n' : Char) :: dashes3).isPrefixOf ('\n' :: L) = dashes3.isPrefixOf L
  simp [List.isPrefixOf]

theorem takeWhile_eq_nil_of_head (l : Str) (c : Char) (h : l.head? = some c)
    (hc : isSpace c = false) : l.takeWhile isSpace = [] := by
  cases l with
  | nil => cases h
  | cons a t =>
      have hac : a = c := by injection h
      subst hac
      simp [List.takeWhile_cons, hc]

theorem findSub_yaml (H : Dict) (hH : ∀ kv ∈ H, goodKey kv.1 ∧ goodVal kv.2)
    (s : Str) (hne : H ≠ []) :
    findSubIdx nlDashes (yamlOf H ++ '\n' :: '-' :: '-' :: '-' :: s)
      = some (yamlOf H).length := by
  induction H with
  | nil => exact absurd rfl hne
  | cons kv H ih =>
      obtain ⟨k, v⟩ := kv
      obtain ⟨hk, hv⟩ := hH (k, v) (List.mem_cons_self _ _)
      cases H with
      | nil =>
          rw [yamlOf_single]
          rw [findSubIdx_chunk (lineOf (k, v)) (goodKey_line_chars k v hk hv) _]
          rw [findSubIdx_pos _ _ (isPrefixOf_nlDashes_close s)]
          simp
      | cons kv2 H2 =>
          obtain ⟨k2, v2⟩ := kv2
          have hk2 := (hH (k2, v2) (List.mem_cons_of_mem _ (List.mem_cons_self _ _))).1
          rw [yamlOf_cons (k, v) ((k2, v2) :: H2) (by simp), List.append_assoc]
          rw [findSubIdx_chunk (lineOf (k, v)) (goodKey_line_chars k v hk hv) _]
          have hpre : nlDashes.isPrefixOf
              ('\n' :: (yamlOf ((k2, v2) :: H2) ++ '\n' :: '-' :: '-' :: '-' :: s))
                = false := by
            rw [isPrefixOf_nlDashes_cons_nl]
            cases H2 with
            | nil =>
                rw [yamlOf_single]
                exact not_dashes_prefix_line k2 v2 hk2 _
            | cons kv3 H3 =>
                rw [yamlOf_cons (k2, v2) (kv3 :: H3) (by simp), List.append_assoc]
                exact not_dashes_prefix_line k2 v2 hk2 _
          rw [List.cons_append]
          rw [findSubIdx_cons_neg _ _ _ hpre]
          rw [ih (fun kv hkv => hH kv (List.mem_cons_of_mem _ hkv)) (by simp)]
          simp only [Option.map_some', List.length_append, List.length_cons]
          congr 1
          omega

theorem takeWhile_block (H : Dict) (hne : H ≠ [])
    (hgood : ∀ kv ∈ H, goodKey kv.1 ∧ goodVal kv.2) (y : Str) :
    ((blockOf H ++ y).takeWhile isSpace) = [] := by
  cases H with
  | nil => exact absurd rfl hne
  | cons kv H' =>
      obtain ⟨k, v⟩ := kv
      obtain ⟨hk, -⟩ := hgood (k, v) (List.mem_cons_self _ _)
      cases k with
      | nil => exact absurd rfl hk.1
      | cons c k' =>
          have hc : isSpace c = false :=
            pyStrip_self_head (c :: k') c hk.2.1 rfl
          have hh : ((blockOf ((c :: k', v) :: H')) ++ y).head? = some c := by
            rw [blockOf_cons]
            simp [lineOf]
          exact takeWhile_eq_nil_of_head _ c hh hc

theorem fmSplit_serialize (H : Dict) (B : Str) (hH : goodHeader H)
    (hB : pyStrip B = B) :
    fmSplit (serialize H B) = some (yamlOf H, B) := by
  obtain ⟨hne, hnodup, hgood⟩ := hH
  have hser : serialize H B
      = dashes3 ++ '\n' :: (blockOf H ++ '-' :: '-' :: '-' :: '\n' :: B) := by
    unfold serialize
    simp [dashes3]
  have hblock : blockOf H ++ '-' :: '-' :: '-' :: '\n' :: B
      = yamlOf H ++ '\n' :: '-' :: '-' :: '-' :: '\n' :: B := by
    rw [blockOf_eq H hne]
    simp
  unfold fmSplit
  rw [hser]
  rw [if_pos (isPrefixOf_append_self dashes3 _)]
  have hdrop : (dashes3 ++ '\n' :: (blockOf H ++ '-' :: '-' :: '-' :: '\n' :: B)).drop 3
      = '\n' :: (blockOf H ++ '-' :: '-' :: '-' :: '\n' :: B) :=
    List.drop_left' rfl
  rw [hdrop]
  dsimp only
  have hrun : (('\n' :: (blockOf H ++ '-' :: '-' :: '-' :: '\n' :: B)).takeWhile isSpace)
      = ['\n'] := by
    rw [List.takeWhile_cons]
    rw [takeWhile_block H hne hgood _]
    rfl
  rw [hrun]
  have hfind : findSubIdx nlDashes
      (('\n' :: (blockOf H ++ '-' :: '-' :: '-' :: '\n' :: B)).drop 1)
        = some (yamlOf H).length := by
    show findSubIdx nlDashes (blockOf H ++ '-' :: '-' :: '-' :: '\n' :: B) = _
    rw [hblock]
    exact findSub_yaml H hgood ('\n' :: B) hne
  have htry : tryOpen ('\n' :: (blockOf H ++ '-' :: '-' :: '-' :: '\n' :: B))
      ((nlSuccPos ['\n'] 0).reverse) = some (1, (yamlOf H).length) := by
    show tryOpen ('\n' :: (blockOf H ++ '-' :: '-' :: '-' :: '\n' :: B)) [1] = _
    unfold tryOpen
    rw [hfind]
  rw [htry]
  dsimp only
  have htake : ((('\n' :: (blockOf H ++ '-' :: '-' :: '-' :: '\n' :: B)).drop 1).take
      (yamlOf H).length) = yamlOf H := by
    show ((blockOf H ++ '-' :: '-' :: '-' :: '\n' :: B).take (yamlOf H).length) = _
    rw [hblock]
    exact List.take_left' rfl
  have hdrop2 : ((('\n' :: (blockOf H ++ '-' :: '-' :: '-' :: '\n' :: B)).drop 1).drop
      ((yamlOf H).length + 4)).dropWhile isSpace = B := by
    show ((blockOf H ++ '-' :: '-' :: '-' :: '\n' :: B).drop
      ((yamlOf H).length + 4)).dropWhile isSpace = B
    rw [hblock]
    have h4 : (yamlOf H ++ '\n' :: '-' :: '-' :: '-' :: '\n' :: B).drop
        ((yamlOf H).length + 4)
        = ('\n' :: '-' :: '-' :: '-' :: '\n' :: B).drop 4 := List.drop_append 4
    rw [h4]
    show ('\n' :: B).dropWhile isSpace = B
    rw [List.dropWhile_cons_of_pos (by decide : isSpace '\n' = true)]
    exact dropWhile_eq_self_of_pyStrip B hB
  rw [htake, hdrop2]

-- ==================================================================
-- C7: splitting the serialized header block into lines
-- ==================================================================

theorem splitlinesGo_cons_newline (acc t : Str) :
    splitlinesGo acc ('\n' :: t) = acc.reverse :: splitlinesGo [] t := rfl

theorem splitlinesGo_cons_nonbreak (acc : Str) (c : Char) (t : Str)
    (hc : isBreak c = false) :
    splitlinesGo acc (c :: t) = splitlinesGo (c :: acc) t := by
  have h1 : ¬ (c = '\r') := by
    intro h
    subst h
    exact absurd hc (by decide)
  rw [splitlinesGo.eq_def]
  split
  · rename_i heq
    cases heq
  · rename_i heq
    injection heq with h2 h3
    exact absurd h2 h1
  · rename_i hno hne
    injection hne with h2 h3
    subst h2
    subst h3
    rw [if_neg (show ¬ (isBreak c = true) by simp [hc])]

theorem splitlinesGo_chunk (chunk : Str) (hc : ∀ c ∈ chunk, isBreak c = false) :
    ∀ (acc t : Str), splitlinesGo acc (chunk ++ '\n' :: t)
      = (acc.reverse ++ chunk) :: splitlinesGo [] t := by
  induction chunk with
  | nil =>
      intro acc t
      rw [List.nil_append, splitlinesGo_cons_newline]
      simp
  | cons c ch ih =>
      intro acc t
      rw [List.cons_append,
        splitlinesGo_cons_nonbreak acc c _ (hc c (List.mem_cons_self _ _))]
      rw [ih (fun x hx => hc x (List.mem_cons_of_mem _ hx)) (c :: acc) t]
      simp

theorem splitlinesGo_chunk_end (chunk : Str) (hc : ∀ c ∈ chunk, isBreak c = false) :
    ∀ acc : Str, splitlinesGo acc chunk
      = if (acc.reverse ++ chunk).isEmpty then [] else [acc.reverse ++ chunk] := by
  induction chunk with
  | nil =>
      intro acc
      show (if acc.isEmpty then [] else [acc.reverse]) = _
      cases acc with
      | nil => simp
      | cons a l => simp
  | cons c ch ih =>
      intro acc
      rw [splitlinesGo_cons_nonbreak acc c _ (hc c (List.mem_cons_self _ _))]
      rw [ih (fun x hx => hc x (List.mem_cons_of_mem _ hx)) (c :: acc)]
      have he : (c :: acc).reverse ++ ch = acc.reverse ++ c :: ch := by
        simp
      rw [he]

theorem goodKey_line_nobreak (k v : Str) (hk : goodKey k) (hv : goodVal v) :
    ∀ c ∈ lineOf (k, v), isBreak c = false := by
  intro c hc
  unfold lineOf at hc
  simp only [List.mem_append, List.mem_cons] at hc
  have hbreak : ∀ d : Char, d ≠ '\n' → d ≠ '\r' → d ≠ '\x0b' → d ≠ '\x0c' →
      isBreak d = false := by
    intro d h1 h2 h3 h4
    simp [isBreak, h1, h2, h3, h4]
  rcases hc with h | h | h | h
  · exact hbreak c (fun he => hk.2.2.2.1 (he ▸ h)) (fun he => hk.2.2.2.2.1 (he ▸ h))
      (fun he => hk.2.2.2.2.2.1 (he ▸ h)) (fun he => hk.2.2.2.2.2.2.1 (he ▸ h))
  · subst h; decide
  · subst h; decide
  · exact hbreak c (fun he => hv.2.1 (he ▸ h)) (fun he => hv.2.2.1 (he ▸ h))
      (fun he => hv.2.2.2.1 (he ▸ h)) (fun he => hv.2.2.2.2.1 (he ▸ h))

theorem lineOf_ne_nil (k v : Str) : lineOf (k, v) ≠ [] := by
  unfold lineOf
  intro h
  have := congrArg List.length h
  simp at this

theorem splitlines_yamlOf (H : Dict) (hH : ∀ kv ∈ H, goodKey kv.1 ∧ goodVal kv.2)
    (hne : H ≠ []) : splitlines (yamlOf H) = H.map lineOf := by
  induction H with
  | nil => exact absurd rfl hne
  | cons kv H' ih =>
      obtain ⟨k, v⟩ := kv
      obtain ⟨hk, hv⟩ := hH (k, v) (List.mem_cons_self _ _)
      cases H' with
      | nil =>
          rw [yamlOf_single]
          show splitlinesGo [] (lineOf (k, v)) = [lineOf (k, v)]
          rw [splitlinesGo_chunk_end (lineOf (k, v)) (goodKey_line_nobreak k v hk hv) []]
          simp only [List.reverse_nil, List.nil_append]
          rw [if_neg (by simp [lineOf_ne_nil k v])]
      | cons kv2 H2 =>
          rw [yamlOf_cons (k, v) (kv2 :: H2) (by simp)]
          show splitlinesGo [] (lineOf (k, v) ++ '\n' :: yamlOf (kv2 :: H2)) = _
          rw [splitlinesGo_chunk (lineOf (k, v)) (goodKey_line_nobreak k v hk hv) []]
          rw [show splitlinesGo [] (yamlOf (kv2 :: H2)) = splitlines (yamlOf (kv2 :: H2))
            from rfl]
          rw [ih (fun x hx => hH x (List.mem_cons_of_mem _ hx)) (by simp)]
          simp

-- ==================================================================
-- C7: parsing one serialized header line
-- ==================================================================

theorem head?_line (k v : Str) (hk : k ≠ []) :
    (lineOf (k, v)).head? = k.head? := by
  unfold lineOf
  cases k with
  | nil => exact absurd rfl hk
  | cons c k1 => rfl

theorem getLast?_line (k v : Str) (hv : v ≠ []) :
    (lineOf (k, v)).getLast? = v.getLast? := by
  unfold lineOf
  rw [List.getLast?_append]
  cases v with
  | nil => exact absurd rfl hv
  | cons a v' =>
      rw [List.getLast?_cons_cons, List.getLast?_cons_cons]
      cases h : (a :: v').getLast? with
      | none => exact absurd (List.getLast?_eq_none_iff.mp h) (by simp)
      | some x => rfl

theorem pyStrip_line_val (k v : Str) (hk : goodKey k) (hv : goodVal v)
    (hvne : v ≠ []) : pyStrip (lineOf (k, v)) = lineOf (k, v) := by
  apply pyStrip_eq_self
  · intro c hc
    rw [head?_line k v hk.1] at hc
    exact pyStrip_self_head k c hk.2.1 hc
  · intro c hc
    rw [getLast?_line k v hvne] at hc
    exact pyStrip_self_getLast v c hv.1 hc

theorem pyStrip_line_noval (k : Str) (hk : goodKey k) :
    pyStrip (lineOf (k, [])) = k ++ [':'] := by
  unfold pyStrip lineOf
  have h1 : ((k ++ ':' :: ' ' :: []).dropWhile isSpace) = k ++ ':' :: ' ' :: [] := by
    apply dropWhile_eq_self_of_head
    intro c hc
    cases hkk : k with
    | nil => exact absurd hkk hk.1
    | cons c0 k1 =>
        rw [hkk] at hc
        have hcc : c = c0 := by
          injection hc with h
          exact h.symm
        subst hcc
        exact pyStrip_self_head k c hk.2.1 (by rw [hkk]; rfl)
  rw [h1]
  have h2 : (k ++ ':' :: ' ' :: []).reverse = ' ' :: ':' :: k.reverse := by
    simp
  rw [h2]
  rw [List.dropWhile_cons_of_pos (by decide : isSpace ' ' = true)]
  rw [List.dropWhile_cons_of_neg (by decide : ¬ (isSpace ':' = true))]
  simp

theorem findIdx_colon (k : Str) (hcolon : ':' ∉ k) (rest : Str) :
    ∀ i, (k ++ ':' :: rest).findIdx? (fun c => c == ':') i = some (k.length + i) := by
  induction k with
  | nil =>
      intro i
      simp [List.findIdx?_cons]
  | cons c k1 ih =>
      intro i
      have hc : (c == ':') = false := by
        simp only [beq_eq_false_iff_ne]
        intro h
        exact hcolon (h ▸ List.mem_cons_self c k1)
      rw [List.cons_append, List.findIdx?_cons]
      rw [if_neg (by simp [hc])]
      rw [ih (fun h => hcolon (List.mem_cons_of_mem c h)) (i + 1)]
      congr 1
      simp only [List.length_cons]
      omega

theorem lineKeyVal_lineOf (k v : Str) (hk : goodKey k) (hv : goodVal v) :
    lineKeyVal (lineOf (k, v)) = some (k, v) := by
  unfold lineKeyVal
  cases hvv : v == [] with
  | true =>
      have hvnil : v = [] := by simpa using hvv
      subst hvnil
      rw [pyStrip_line_noval k hk]
      rw [if_neg (by
        intro h
        have hlen := congrArg List.length h
        simp at hlen)]
      rw [if_neg (by
        rw [show (k ++ [':']).head? = k.head? by
          cases k with
          | nil => exact absurd rfl hk.1
          | cons c k1 => rfl]
        exact hk.2.2.2.2.2.2.2.1)]
      rw [show (k ++ [':']) = k ++ ':' :: [] from rfl]
      rw [findIdx_colon k hk.2.2.1 [] 0]
      dsimp only
      rw [show k.length + 0 = k.length by omega]
      rw [List.take_left' rfl]
      rw [show (k ++ ':' :: []).drop (k.length + 1) = ([] : Str).drop 1 from
        List.drop_append 1]
      rw [hk.2.1]
      rfl
  | false =>
      have hvne : v ≠ [] := by simpa using hvv
      rw [pyStrip_line_val k v hk hv hvne]
      rw [if_neg (by
        unfold lineOf
        intro h
        have := congrArg List.length h
        simp at this)]
      rw [if_neg (by
        rw [head?_line k v hk.1]
        exact hk.2.2.2.2.2.2.2.1)]
      rw [show lineOf (k, v) = k ++ ':' :: (' ' :: v) from rfl]
      rw [findIdx_colon k hk.2.2.1 (' ' :: v) 0]
      dsimp only
      rw [show k.length + 0 = k.length by omega]
      rw [List.take_left' rfl]
      rw [show (k ++ ':' :: ' ' :: v).drop (k.length + 1) = ' ' :: v from
        List.drop_append 1]
      rw [pyStrip_cons_space v]
      rw [hk.2.1, hv.1]
      rw [show stripQuotes v = v from if_neg hv.2.2.2.2.2]

theorem foldl_lines (H : Dict) :
    ∀ m : Dict, (∀ kv ∈ H, goodKey kv.1 ∧ goodVal kv.2) → (dkeys H).Nodup →
      (∀ kv ∈ H, kv.1 ∉ dkeys m) →
      (H.map lineOf).foldl processLine m = m ++ H := by
  induction H with
  | nil => intro m _ _ _; simp
  | cons kv H' ih =>
      intro m hH hnodup hdisj
      obtain ⟨k, v⟩ := kv
      obtain ⟨hk, hv⟩ := hH (k, v) (List.mem_cons_self _ _)
      show (H'.map lineOf).foldl processLine (processLine m (lineOf (k, v))) = _
      have hpl : processLine m (lineOf (k, v)) = dinsert m k v := by
        rw [processLine_eq, lineKeyVal_lineOf k v hk hv]
      rw [hpl, dinsert_of_not_mem m k v (hdisj (k, v) (List.mem_cons_self _ _))]
      have hknotin : k ∉ dkeys H' := by
        have := hnodup
        simp only [dkeys, List.map_cons, List.nodup_cons] at this
        exact fun h => this.1 (by simpa [dkeys] using h)
      rw [ih (m ++ [(k, v)]) (fun x hx => hH x (List.mem_cons_of_mem _ hx))
        (by
          simp only [dkeys, List.map_cons, List.nodup_cons] at hnodup
          exact hnodup.2)
        (by
          intro x hx
          simp only [dkeys, List.map_append]
          intro hmem
          rcases List.mem_append.mp hmem with h | h
          · exact hdisj x (List.mem_cons_of_mem _ hx) (by simpa [dkeys] using h)
          · simp at h
            exact hknotin (h ▸ (by simpa [dkeys] using List.mem_map_of_mem Prod.fst hx)))]
      simp

instance : DecidablePred goodKey := fun k => by
  unfold goodKey
  infer_instance

instance : DecidablePred goodVal := fun v => by
  unfold goodVal
  infer_instance

instance (H : Dict) : Decidable (goodHeader H) := by
  unfold goodHeader
  infer_instance

/-- C7 counterexample: with header {a: b} and body "x\n" — a header and
body free of any delimiter collision — the parser returns the stripped
body "x", not "x\n", so parse(serialize(H,B)) = (H,B) fails as stated;
and with an empty header the delimiter shape is not even recognized (the
whole serialized document becomes the body). -/
theorem codec_roundtrip_counterexample :
    dget (parseFrontmatter (serialize [(str "a", str "b")] (str "x\n"))) bodyKey
      = some (str "x")
  ∧ str "x" ≠ str "x\n"
  ∧ parseFrontmatter (serialize [] (str "hello"))
      = [(bodyKey, str "---\n---\nhello")] := by
  decide

/-- C7 (amended): for every nonempty header mapping H with distinct keys,
each key nonempty, whitespace-stripped, free of colons, line boundaries
and a leading `#` or `---`, and different from the reserved `__body__`;
each value whitespace-stripped, single-line and not quote-wrapped; and
every body B that equals its own strip — parsing the serialized document
returns exactly the body under `__body__` together with H.  (Without
these conditions the round trip can fail: bodies are stripped, values are
unquoted, and an empty header defeats the delimiter shape.) -/
theorem codec_roundtrip (H : Dict) (B : Str) (hH : goodHeader H)
    (hB : pyStrip B = B) :
    parseFrontmatter (serialize H B) = (bodyKey, B) :: H := by
  obtain ⟨hne, hnodup, hgood⟩ := hH
  unfold parseFrontmatter
  rw [fmSplit_serialize H B ⟨hne, hnodup, hgood⟩ hB]
  dsimp only
  rw [splitlines_yamlOf H hgood hne, hB]
  rw [foldl_lines H [(bodyKey, B)] hgood hnodup (by
    intro kv hkv
    have hbk := (hgood kv hkv).1.2.2.2.2.2.2.2.2.2
    simp [dkeys]
    exact hbk)]
  rfl

/-- C7 witness: a concrete send-directive header and body survive the
round trip. -/
theorem codec_roundtrip_witness :
    parseFrontmatter (serialize
        [(str "to", str "a@b.com"), (str "subject", str "Hi")] (str "body text"))
      = (bodyKey, str "body text")
          :: [(str "to", str "a@b.com"), (str "subject", str "Hi")] :=
  codec_roundtrip [(str "to", str "a@b.com"), (str "subject", str "Hi")]
    (str "body text") (by decide) (by decide)

end TaskProc
